import Mathlib

/-
Verification of the vinw incremental tree-synchronization engine.

The Go sources are embedded shallowly:
  - strings/filepath primitives are modelled over character lists so that all
    definitions compute by kernel reduction;
  - the gitignore matcher (internal/gitignore.go) is embedded with the stdlib
    glob matcher filepath.Match abstracted as a Boolean parameter;
  - GetAllGitDiffs (internal/git.go) is embedded over the parsed output of the
    three git commands it shells out to;
  - CreateFile (internal/fileops.go) is embedded over an association-list
    filesystem;
  - the tree builder buildTreeRecursiveWithMap and the Bubble Tea update
    branches of main.go are embedded over an inductive directory-listing type,
    with relative paths represented as segment lists (filepath.Join of a parent
    path and an entry name appends one segment).
-/

namespace Vinw

/-! ## Go string primitives, modelled over character lists -/

/-- Models Go strings.HasPrefix s p. -/
def goHasPre (s p : String) : Bool := p.data.isPrefixOf s.data

/-- Models Go strings.HasSuffix s p. -/
def goHasSuf (s p : String) : Bool := p.data.isSuffixOf s.data

/-- Models Go strings.TrimPrefix s p. -/
def goTrimPre (s p : String) : String :=
  if goHasPre s p then String.mk (s.data.drop p.data.length) else s

/-- Models Go strings.TrimSuffix s p. -/
def goTrimSuf (s p : String) : String :=
  if goHasSuf s p then String.mk (s.data.take (s.data.length - p.data.length)) else s

/-- Splitting a character list at a separator character, keeping empty pieces:
the semantics of Go strings.Split for a one-character separator. -/
def splitCharAux (sep : Char) : List Char → List Char → List String
  | [], acc => [String.mk acc.reverse]
  | c :: rest, acc =>
    if c = sep then String.mk acc.reverse :: splitCharAux sep rest []
    else splitCharAux sep rest (c :: acc)

/-- Models Go strings.Split(s, "/") (filepath.Separator is "/"). -/
def goSplitSlash (s : String) : List String := splitCharAux '/' s.data []

/-- Models Go filepath.Base for the slash-separated relative paths produced by
filepath.Rel (no trailing separator): the last path segment, "." for "". -/
def goBase (path : String) : String :=
  if path = "" then "." else (goSplitSlash path).getLastD "."

/-- Models Go strings.Contains s sub. -/
def goContainsSub (s sub : String) : Bool :=
  s.data.tails.any (fun t => sub.data.isPrefixOf t)

/-- Models the one ReplaceAll call site of the gitignore matcher,
strings.ReplaceAll(pattern, "**", "*"): left-to-right non-overlapping
replacement of a double star by a single star. -/
def replaceDoubleStarAux : List Char → List Char
  | '*' :: '*' :: rest => '*' :: replaceDoubleStarAux rest
  | c :: rest => c :: replaceDoubleStarAux rest
  | [] => []

/-- Models strings.ReplaceAll(pattern, "**", "*"). -/
def goReplaceDoubleStar (s : String) : String := String.mk (replaceDoubleStarAux s.data)

/-! ## Ignore-rule matcher (internal/gitignore.go)

filepath.Match is stdlib glob matching, external to the repository; it is
abstracted as the parameter fpMatch (its error result is discarded at every
call site, so a Boolean suffices). -/

/-- Models GitIgnore.matchPattern (internal/gitignore.go 63-115).  The Go
code mutates its local pattern variable: a leading "/" is trimmed first, and
inside the directory-pattern branch a trailing "/" is trimmed, so all later
checks see the trimmed pattern. -/
def matchPattern (fpMatch : String → String → Bool) (path pattern0 : String) : Bool :=
  let p1 := goTrimPre pattern0 "/"
  let dirHit := goHasSuf p1 "/"
    && (goSplitSlash path).any (fun part => fpMatch (goTrimSuf p1 "/") part)
  let pat := if goHasSuf p1 "/" then goTrimSuf p1 "/" else p1
  dirHit
  || fpMatch pat (goBase path)
  || fpMatch pat path
  || (goContainsSub pat "**" && fpMatch (goReplaceDoubleStar pat) path)
  || (!(pat.data.contains '/') && (goSplitSlash path).any (fun part => fpMatch pat part))

/-- Models GitIgnore.IsIgnored (internal/gitignore.go 46-60) after the
filepath.Rel conversion: relPath is the root-relative path of the queried
entry, and the loaded patterns are checked in order. -/
def IsIgnoredRel (fpMatch : String → String → Bool) (patterns : List String)
    (relPath : String) : Bool :=
  patterns.any (fun pattern => matchPattern fpMatch relPath pattern)

/-! ## Change-metadata provider (internal/git.go, GetAllGitDiffs)

The three git invocations are external; their parsed outputs are the inputs
here.  A numstat record carries parts[0] (added lines, 0 when Atoi fails) and
parts[2] (the path).  Go's map[string]int is modelled as a function. -/

/-- One parsed git diff --numstat output line: added-line count and path. -/
structure NumstatRec where
  added : Int
  path : String
deriving DecidableEq

/-- A change map: repository-relative path to change magnitude (absent = no
entry), modelling Go map[string]int with its presence distinction. -/
def ChangeMap : Type := String → Option Int

/-- Go map assignment diffs[k] = v. -/
def cmSet (m : ChangeMap) (k : String) (v : Int) : ChangeMap :=
  fun x => if x = k then some v else m x

/-- Models GetAllGitDiffs (internal/git.go 670-731) over the parsed outputs of
git diff --numstat (unstaged), git diff --cached --numstat (staged) and
git ls-files --others --exclude-standard (untracked). -/
def GetAllGitDiffs (unstaged staged : List NumstatRec) (untracked : List String) :
    ChangeMap :=
  let d1 := unstaged.foldl (fun m r => cmSet m r.path r.added) (fun _ => none)
  let d2 := staged.foldl (fun m r =>
    match m r.path with
    | some existing => cmSet m r.path (existing + r.added)
    | none => cmSet m r.path r.added) d1
  untracked.foldl (fun m f => if f ≠ "" then cmSet m f (-1) else m) d2

/-! ## Mutation executor (internal/fileops.go) -/

/-- A filesystem node: a regular file with contents, or a directory. -/
inductive FsNode where
  | fileNode (content : String)
  | dirNode
deriving DecidableEq

/-- A flat filesystem: association list from absolute path to node. -/
def Fsys : Type := List (String × FsNode)

/-- Models os.Stat restricted to existence and kind. -/
def fsStat (fs : Fsys) (path : String) : Option FsNode :=
  (List.find? (fun e => e.1 == path) fs).map (fun e => e.2)

/-- Models internal.CreateFile (fileops.go 10-24): a stat existence check, then
os.Create of an empty file.  Returns the resulting filesystem and the error
(none on success); on error the filesystem is returned unchanged. -/
def CreateFile (fs : Fsys) (fullPath : String) : Fsys × Option String :=
  if (fsStat fs fullPath).isSome then
    (fs, some ("file already exists: " ++ fullPath))
  else
    ((fullPath, FsNode.fileNode "") :: fs, none)

/-! ## Render cache pass (main.go, renderTreeWithSelectionOptimized) -/

/-- Models lipgloss NewStyle().Reverse(true).Render: the line is wrapped in SGR
escape sequences; its text is otherwise unchanged and no newline is added. -/
def highlightRender (s : String) : String := "\x1b[7m" ++ s ++ "\x1b[0m"

/-- Models renderTreeWithSelectionOptimized (main.go 1132-1151): empty cache
renders as "", an out-of-range selection renders the cached lines unchanged,
otherwise a copy of the lines with the selected one highlighted is joined. -/
def renderTreeWithSelectionOptimized (lines : List String) (selectedLine : Int) : String :=
  if lines.length = 0 then ""
  else if selectedLine < 0 ∨ (lines.length : Int) ≤ selectedLine then
    String.intercalate "\n" lines
  else
    String.intercalate "\n"
      (lines.set selectedLine.toNat (highlightRender (lines.getD selectedLine.toNat "")))

/-! ## Tree builder (main.go, buildTreeRecursiveWithMap / buildTreeWithMaps)

A directory listing is modelled inductively; the readable flag models whether
os.ReadDir succeeds on the directory (an unreadable directory yields a
childless node, main.go 1157-1160).  Relative paths are segment lists:
filepath.Join(relativePath, entry.Name()) appends one segment. -/

/-- One entry of a directory listing, in os.ReadDir order. -/
inductive FSEntry where
  | file (name : String)
  | dir (name : String) (readable : Bool) (entries : List FSEntry)

/-- The name of a listing entry (entry.Name()). -/
def entryName : FSEntry → String
  | FSEntry.file n => n
  | FSEntry.dir n _ _ => n

/-- Build configuration: the arguments of buildTreeWithMaps other than the root
path and the diff cache (which only decorates rendered file names).  ignored
models gitignore.IsIgnored on the entry's root-relative path. -/
structure BuildCfg where
  ignored : List String → Bool
  respectIgnore : Bool
  nestingEnabled : Bool
  expandedDirs : List (List String)
  showHidden : Bool

/-- The per-entry filter of buildTreeRecursiveWithMap (main.go 1167-1185):
.git is always skipped; hidden entries other than .gitignore are skipped
unless showHidden; gitignore matches are skipped when respectIgnore. -/
def skipEntry (cfg : BuildCfg) (relPath : List String) (name : String) : Bool :=
  name == ".git"
  || (goHasPre name "." && name != ".gitignore" && !cfg.showHidden)
  || (cfg.respectIgnore && cfg.ignored relPath)

/-- The expansion decision (main.go 1195): global nesting, or the directory was
manually expanded. -/
def shouldExpand (cfg : BuildCfg) (relPath : List String) : Bool :=
  cfg.nestingEnabled || cfg.expandedDirs.contains relPath

/-- The outputs of one build: the two position indexes (line number to
relative path, association lists with the insertion order of the traversal),
the directories passed to os.ReadDir by recursive calls, and the final value
of the threaded lineNum counter. -/
structure BuildOut where
  fileMap : List (Nat × List String)
  dirMap : List (Nat × List String)
  reads : List (List String)
  nextLine : Nat

/-- Models the entry loop of buildTreeRecursiveWithMap (main.go 1162-1235)
over the listing of the current directory.  The Nat argument models the
*lineNum pointer threaded through recursive calls.  For an expanded directory
the recursive call reads it (reads records this); when that read fails the
recursive call returns a childless node with lineNum unchanged.  A collapsed
directory contributes its single line and is not recursed into. -/
def buildList (cfg : BuildCfg) : List String → Nat → List FSEntry → BuildOut
  | _, ln, [] => ⟨[], [], [], ln⟩
  | rp, ln, FSEntry.file name :: rest =>
    if skipEntry cfg (rp ++ [name]) name then buildList cfg rp ln rest
    else
      let out := buildList cfg rp (ln + 1) rest
      ⟨(ln, rp ++ [name]) :: out.fileMap, out.dirMap, out.reads, out.nextLine⟩
  | rp, ln, FSEntry.dir name readable cs :: rest =>
    if skipEntry cfg (rp ++ [name]) name then buildList cfg rp ln rest
    else if shouldExpand cfg (rp ++ [name]) then
      let sub := if readable then buildList cfg (rp ++ [name]) (ln + 1) cs
                 else ⟨[], [], [], ln + 1⟩
      let out := buildList cfg rp sub.nextLine rest
      ⟨sub.fileMap ++ out.fileMap,
       (ln, rp ++ [name]) :: (sub.dirMap ++ out.dirMap),
       (rp ++ [name]) :: (sub.reads ++ out.reads),
       out.nextLine⟩
    else
      let out := buildList cfg rp (ln + 1) rest
      ⟨out.fileMap, (ln, rp ++ [name]) :: out.dirMap, out.reads, out.nextLine⟩

/-- Models buildTreeWithMaps (main.go 1112-1119): lineNum starts at 1 because
the root directory's own label takes rendered line 0; the top-level call reads
the root (relative path []).  rootEntries is the root's listing. -/
def buildTreeWithMaps (cfg : BuildCfg) (rootEntries : List FSEntry) : BuildOut :=
  let out := buildList cfg [] 1 rootEntries
  ⟨out.fileMap, out.dirMap, [] :: out.reads, out.nextLine⟩

/-- The rendered entries of a build in depth-first pre-order: for each tracked
entry, whether it is a directory, and its relative path.  The lipgloss tree
renders one text line for the root label and then exactly one line per entry
in this order, so entry i occupies rendered line 1 + i. -/
def entriesOf (cfg : BuildCfg) : List String → List FSEntry → List (Bool × List String)
  | _, [] => []
  | rp, FSEntry.file name :: rest =>
    if skipEntry cfg (rp ++ [name]) name then entriesOf cfg rp rest
    else (false, rp ++ [name]) :: entriesOf cfg rp rest
  | rp, FSEntry.dir name readable cs :: rest =>
    if skipEntry cfg (rp ++ [name]) name then entriesOf cfg rp rest
    else if shouldExpand cfg (rp ++ [name]) then
      (true, rp ++ [name]) ::
        ((if readable then entriesOf cfg (rp ++ [name]) cs else []) ++ entriesOf cfg rp rest)
    else (true, rp ++ [name]) :: entriesOf cfg rp rest

/-- The file index an in-order rendered-entry listing determines when its
first entry sits at line ln: files keep their line, directories are skipped. -/
def filesFrom : Nat → List (Bool × List String) → List (Nat × List String)
  | _, [] => []
  | ln, (isDir, p) :: rest =>
    if isDir then filesFrom (ln + 1) rest else (ln, p) :: filesFrom (ln + 1) rest

/-- The directory index determined by a rendered-entry listing. -/
def dirsFrom : Nat → List (Bool × List String) → List (Nat × List String)
  | _, [] => []
  | ln, (isDir, p) :: rest =>
    if isDir then (ln, p) :: dirsFrom (ln + 1) rest else dirsFrom (ln + 1) rest

/-- Well-formedness of one directory listing level below the top: sibling
names are distinct (os.ReadDir reports each name once) and subdirectory
listings are recursively well-formed. -/
def wfAux : List FSEntry → Prop
  | [] => True
  | FSEntry.file _ :: rest => wfAux rest
  | FSEntry.dir _ _ cs :: rest => (((cs.map entryName).Nodup ∧ wfAux cs) ∧ wfAux rest)

/-- Well-formedness of a directory listing: distinct sibling names at every
level.  This holds of every real filesystem listing. -/
def wfList (es : List FSEntry) : Prop := (es.map entryName).Nodup ∧ wfAux es

/-! ## Selection-preserving rebuild coordinator (main.go, model + Update)

The tree-sync state of the Bubble Tea model: the fields of main.go's model
that the synchronization engine reads or writes.  Presentation fields
(viewport, styles, popups, session id) and the diff cache (which only
decorates rendered names) are outside the embedding.  Each Update branch that
rebuilds becomes a function of the state, the loaded gitignore matcher, and
the directory listing os.ReadDir sees during that rebuild. -/

structure TuiModel where
  selectedLine : Int
  maxLine : Int
  fileMap : List (Nat × List String)
  dirMap : List (Nat × List String)
  respectIgnore : Bool
  showHidden : Bool
  nestingEnabled : Bool
  expandedDirs : List (List String)

/-- The build configuration the model's current flags induce. -/
def cfgOf (m : TuiModel) (ign : List String → Bool) : BuildCfg :=
  ⟨ign, m.respectIgnore, m.nestingEnabled, m.expandedDirs, m.showHidden⟩

/-- Models updateTreeCache (main.go 96-103): the rendered tree has exactly
out.nextLine text lines (the root label plus one line per entry), and
maxLine = line count - 1 clamped at 0. -/
def newMaxLine (out : BuildOut) : Int :=
  if (out.nextLine : Int) - 1 < 0 then 0 else (out.nextLine : Int) - 1

/-- Models a Go map index m.fileMap[sel]: the value at the key, if present.
The build never inserts a key twice, so the association-list read matches. -/
def lookupAt (mp : List (Nat × List String)) (sel : Int) : Option (List String) :=
  (List.find? (fun e => ((e.1 : Int) == sel)) mp).map (fun e => e.2)

/-- Models the relocation scan "for line, p := range m" with break on the
first entry whose path equals the remembered one.  Go map iteration order is
unspecified; under the build invariant that paths are distinct the matching
entry is unique, so any order yields this result. -/
def findLineOf (mp : List (Nat × List String)) (p : List String) : Option Nat :=
  (List.find? (fun e => e.2 == p) mp).map (fun e => e.1)

/-- The two sequential bound checks applied to a relocated selection
(e.g. main.go 377-382): cap at maxLine, then floor at 0. -/
def clampSel (sel maxLine : Int) : Int :=
  if (if sel > maxLine then maxLine else sel) < 0 then 0
  else (if sel > maxLine then maxLine else sel)

/-- Models the tickMsg branch (main.go 788-827): refresh the diff cache,
remember the selected file (only the file index is consulted), rebuild,
relocate to that file if still present, clamp. -/
def tickUpdate (m : TuiModel) (ign : List String → Bool) (fs : List FSEntry) : TuiModel :=
  let out := buildTreeWithMaps (cfgOf m ign) fs
  let maxL := newMaxLine out
  let sel1 :=
    match lookupAt m.fileMap m.selectedLine with
    | some f =>
      match findLineOf out.fileMap f with
      | some l => (l : Int)
      | none => m.selectedLine
    | none => m.selectedLine
  { m with selectedLine := clampSel sel1 maxL, maxLine := maxL,
           fileMap := out.fileMap, dirMap := out.dirMap }

/-- The "remember current selection" block shared by the full-refresh and
expand/collapse branches: the file index takes precedence at the selected
line, else the directory index (e.g. main.go 345-351). -/
def recordSelection (m : TuiModel) : Option (List String) :=
  match lookupAt m.fileMap m.selectedLine with
  | some f => some f
  | none => lookupAt m.dirMap m.selectedLine

/-- Models the "R" full-refresh branch (main.go 341-389): remember the
selection (file index first, else directory index), rebuild, search the new
file index, then — if the scan left the default 0 — the new directory index,
then clamp. -/
def keyR (m : TuiModel) (ign : List String → Bool) (fs : List FSEntry) : TuiModel :=
  let currentSelection := recordSelection m
  let out := buildTreeWithMaps (cfgOf m ign) fs
  let maxL := newMaxLine out
  let n :=
    match currentSelection with
    | none => (0 : Int)
    | some p =>
      let nf : Int := match findLineOf out.fileMap p with | some l => (l : Int) | none => 0
      if nf == 0 then
        match findLineOf out.dirMap p with | some l => (l : Int) | none => nf
      else nf
  { m with selectedLine := clampSel n maxL, maxLine := maxL,
           fileMap := out.fileMap, dirMap := out.dirMap }

/-- Models the "i" gitignore-toggle branch (main.go 400-438): toggle, remember
the selected file (file index only), rebuild, relocate starting from the
default 0, clamp. -/
def keyI (m : TuiModel) (ign : List String → Bool) (fs : List FSEntry) : TuiModel :=
  let m1 := { m with respectIgnore := !m.respectIgnore }
  let out := buildTreeWithMaps (cfgOf m1 ign) fs
  let maxL := newMaxLine out
  let n :=
    match lookupAt m.fileMap m.selectedLine with
    | none => (0 : Int)
    | some f =>
      match findLineOf out.fileMap f with | some l => (l : Int) | none => 0
  { m1 with selectedLine := clampSel n maxL, maxLine := maxL,
            fileMap := out.fileMap, dirMap := out.dirMap }

/-- Models the "u" hidden-files-toggle branch (main.go 565-603): identical to
the "i" branch with the showHidden flag. -/
def keyU (m : TuiModel) (ign : List String → Bool) (fs : List FSEntry) : TuiModel :=
  let m1 := { m with showHidden := !m.showHidden }
  let out := buildTreeWithMaps (cfgOf m1 ign) fs
  let maxL := newMaxLine out
  let n :=
    match lookupAt m.fileMap m.selectedLine with
    | none => (0 : Int)
    | some f =>
      match findLineOf out.fileMap f with | some l => (l : Int) | none => 0
  { m1 with selectedLine := clampSel n maxL, maxLine := maxL,
            fileMap := out.fileMap, dirMap := out.dirMap }

/-- Models the "n" nesting-toggle branch (main.go 439-483): toggle the global
flag, clear the manual expansion set when the toggle lands on enabled, then
the same file-only relocation as the other visibility toggles. -/
def keyN (m : TuiModel) (ign : List String → Bool) (fs : List FSEntry) : TuiModel :=
  let m1 := { m with nestingEnabled := !m.nestingEnabled }
  let m2 := if m1.nestingEnabled then { m1 with expandedDirs := [] } else m1
  let out := buildTreeWithMaps (cfgOf m2 ign) fs
  let maxL := newMaxLine out
  let n :=
    match lookupAt m2.fileMap m2.selectedLine with
    | none => (0 : Int)
    | some f =>
      match findLineOf out.fileMap f with | some l => (l : Int) | none => 0
  { m2 with selectedLine := clampSel n maxL, maxLine := maxL,
            fileMap := out.fileMap, dirMap := out.dirMap }

/-- Models the "l"/"right" expand branch (main.go 604-658): only when global
nesting is off and a directory is selected; mark it expanded, remember the
selection (file index first, else directory), rebuild, relocate starting from
the current line (directory index consulted when the file scan left the line
unchanged), clamp. -/
def keyL (m : TuiModel) (ign : List String → Bool) (fs : List FSEntry) : TuiModel :=
  if m.nestingEnabled then m
  else
    match lookupAt m.dirMap m.selectedLine with
    | none => m
    | some dirPath =>
      let m1 := { m with expandedDirs := if m.expandedDirs.contains dirPath then m.expandedDirs else dirPath :: m.expandedDirs }
      let currentSelection := recordSelection m1
      let out := buildTreeWithMaps (cfgOf m1 ign) fs
      let maxL := newMaxLine out
      let n :=
        match currentSelection with
        | none => m.selectedLine
        | some p =>
          let nf : Int := match findLineOf out.fileMap p with
            | some l => (l : Int) | none => m.selectedLine
          if nf == m.selectedLine then
            match findLineOf out.dirMap p with | some l => (l : Int) | none => nf
          else nf
      { m1 with selectedLine := clampSel n maxL, maxLine := maxL,
                fileMap := out.fileMap, dirMap := out.dirMap }

/-- Models the "h" collapse branch (main.go 510-564); the "left" branch
(main.go 659-713) is textually identical.  Only when global nesting is off and
a directory is selected; remove it from the expansion set, then the same
relocation as the expand branch. -/
def keyH (m : TuiModel) (ign : List String → Bool) (fs : List FSEntry) : TuiModel :=
  if m.nestingEnabled then m
  else
    match lookupAt m.dirMap m.selectedLine with
    | none => m
    | some dirPath =>
      let m1 := { m with expandedDirs := m.expandedDirs.filter (fun d => !(d == dirPath)) }
      let currentSelection := recordSelection m1
      let out := buildTreeWithMaps (cfgOf m1 ign) fs
      let maxL := newMaxLine out
      let n :=
        match currentSelection with
        | none => m.selectedLine
        | some p =>
          let nf : Int := match findLineOf out.fileMap p with
            | some l => (l : Int) | none => m.selectedLine
          if nf == m.selectedLine then
            match findLineOf out.dirMap p with | some l => (l : Int) | none => nf
          else nf
      { m1 with selectedLine := clampSel n maxL, maxLine := maxL,
                fileMap := out.fileMap, dirMap := out.dirMap }

/-- Models the creation "enter" confirm branch (main.go 204-249) for a
non-empty trimmed name: the file or directory is created on disk (mutation is
external; fs is the listing the forced rebuild then sees) and the tree is
rebuilt.  Unlike every sibling rebuild branch, this one does not re-clamp
selectedLine after the rebuild. -/
def createEnter (m : TuiModel) (ign : List String → Bool) (fs : List FSEntry)
    (name : String) : TuiModel :=
  if name = "" then m
  else
    let out := buildTreeWithMaps (cfgOf m ign) fs
    { m with maxLine := newMaxLine out, fileMap := out.fileMap, dirMap := out.dirMap }

/-- Models the deletion "y" confirm branch (main.go 261-294): delete on disk
(external; fs is the listing the rebuild sees), rebuild, clamp. -/
def deleteConfirm (m : TuiModel) (ign : List String → Bool) (fs : List FSEntry) : TuiModel :=
  let out := buildTreeWithMaps (cfgOf m ign) fs
  let maxL := newMaxLine out
  { m with selectedLine := clampSel m.selectedLine maxL, maxLine := maxL,
           fileMap := out.fileMap, dirMap := out.dirMap }

/-- Models the "j"/"down" branch (main.go 484-496): move down within bounds;
no rebuild. -/
def moveDown (m : TuiModel) : TuiModel :=
  if m.selectedLine < m.maxLine then { m with selectedLine := m.selectedLine + 1 } else m

/-- Models the "k"/"up" branch (main.go 497-509): move up within bounds;
no rebuild. -/
def moveUp (m : TuiModel) : TuiModel :=
  if m.selectedLine > 0 then { m with selectedLine := m.selectedLine - 1 } else m

/-! ## Theorems: mutation executor (C5) -/

/-- C5: CreateFile on a path where an entry already exists returns an error
and leaves the filesystem (in particular the existing entry's contents)
unchanged — it never truncates, overwrites, or silently no-ops; on a path
with no entry it creates an empty file and returns no error, touching no
other path. -/
theorem createFile_collision_safe (fs : Fsys) (fullPath : String) :
    ((fsStat fs fullPath).isSome = true →
      CreateFile fs fullPath = (fs, some ("file already exists: " ++ fullPath)))
  ∧ (fsStat fs fullPath = none →
      (CreateFile fs fullPath).2 = none
      ∧ fsStat (CreateFile fs fullPath).1 fullPath = some (FsNode.fileNode "")
      ∧ ∀ q, q ≠ fullPath → fsStat (CreateFile fs fullPath).1 q = fsStat fs q) := by
  constructor
  · intro h
    simp [CreateFile, h]
  · intro h
    have h2 : (fsStat fs fullPath).isSome = false := by simp [h]
    have hcf : CreateFile fs fullPath = ((fullPath, FsNode.fileNode "") :: fs, none) := by
      simp [CreateFile, h2]
    refine ⟨by simp [hcf], by simp [hcf, fsStat], ?_⟩
    intro q hq
    have hpq : (fullPath == q) = false := by simp [Ne.symm hq]
    simp [hcf, fsStat, List.find?_cons, hpq]

/-- Witness for C5 at a concrete filesystem: creating over an existing file
errors and preserves it; creating a fresh file succeeds. -/
theorem createFile_collision_safe_witness :
    ((fsStat [("a.txt", FsNode.fileNode "hello")] "a.txt").isSome = true
      ∧ CreateFile [("a.txt", FsNode.fileNode "hello")] "a.txt"
        = ([("a.txt", FsNode.fileNode "hello")], some ("file already exists: " ++ "a.txt")))
  ∧ (fsStat [("a.txt", FsNode.fileNode "hello")] "b.txt" = none
      ∧ (CreateFile [("a.txt", FsNode.fileNode "hello")] "b.txt").2 = none) :=
  ⟨⟨by decide, (createFile_collision_safe [("a.txt", FsNode.fileNode "hello")] "a.txt").1
      (by decide)⟩,
   ⟨by decide, ((createFile_collision_safe [("a.txt", FsNode.fileNode "hello")] "b.txt").2
      (by decide)).1⟩⟩

/-! ## Theorems: change-metadata provider (C4) -/

theorem cmSet_self (m : ChangeMap) (k : String) (v : Int) : cmSet m k v k = some v := by
  simp [cmSet]

theorem cmSet_ne (m : ChangeMap) (k v x) (h : x ≠ k) : cmSet m k v x = m x := by
  simp [cmSet, h]

theorem foldUnstaged_ne (p : String) :
    ∀ (l : List NumstatRec) (acc : ChangeMap), p ∉ l.map NumstatRec.path →
      l.foldl (fun m r => cmSet m r.path r.added) acc p = acc p := by
  intro l
  induction l with
  | nil => intro acc _; rfl
  | cons r rest ih =>
    intro acc hp
    simp only [List.map_cons, List.mem_cons] at hp
    push_neg at hp
    rw [List.foldl_cons, ih _ hp.2, cmSet_ne _ _ _ _ hp.1]

theorem foldUnstaged_mem (p : String) (u : Int) :
    ∀ (l : List NumstatRec) (acc : ChangeMap), (l.map NumstatRec.path).Nodup →
      (⟨u, p⟩ : NumstatRec) ∈ l →
      l.foldl (fun m r => cmSet m r.path r.added) acc p = some u := by
  intro l
  induction l with
  | nil => intro acc _ habs; cases habs
  | cons r rest ih =>
    intro acc hnd hmem
    simp only [List.map_cons, List.nodup_cons] at hnd
    rcases List.mem_cons.mp hmem with heq | hmem2
    · subst heq
      rw [List.foldl_cons, foldUnstaged_ne _ _ _ hnd.1, cmSet_self]
    · have hne : r.path ≠ p := by
        intro hbad
        exact hnd.1 (hbad ▸ List.mem_map_of_mem NumstatRec.path hmem2)
      rw [List.foldl_cons]
      have := ih (cmSet acc r.path r.added) hnd.2 hmem2
      exact this

theorem foldStaged_ne (p : String) :
    ∀ (l : List NumstatRec) (acc : ChangeMap), p ∉ l.map NumstatRec.path →
      l.foldl (fun m r =>
        match m r.path with
        | some existing => cmSet m r.path (existing + r.added)
        | none => cmSet m r.path r.added) acc p = acc p := by
  intro l
  induction l with
  | nil => intro acc _; rfl
  | cons r rest ih =>
    intro acc hp
    simp only [List.map_cons, List.mem_cons] at hp
    push_neg at hp
    rw [List.foldl_cons, ih _ hp.2]
    cases acc r.path with
    | none => exact cmSet_ne _ _ _ _ hp.1
    | some e => exact cmSet_ne _ _ _ _ hp.1

theorem foldStaged_mem (p : String) (s : Int) :
    ∀ (l : List NumstatRec) (acc : ChangeMap), (l.map NumstatRec.path).Nodup →
      (⟨s, p⟩ : NumstatRec) ∈ l →
      l.foldl (fun m r =>
        match m r.path with
        | some existing => cmSet m r.path (existing + r.added)
        | none => cmSet m r.path r.added) acc p
        = some ((acc p).getD 0 + s) := by
  intro l
  induction l with
  | nil => intro acc _ habs; cases habs
  | cons r rest ih =>
    intro acc hnd hmem
    simp only [List.map_cons, List.nodup_cons] at hnd
    rcases List.mem_cons.mp hmem with heq | hmem2
    · subst heq
      rw [List.foldl_cons, foldStaged_ne _ _ _ hnd.1]
      cases hacc : acc p with
      | none => simp [hacc, cmSet_self]
      | some e => simp [hacc, cmSet_self]
    · have hne : r.path ≠ p := by
        intro hbad
        exact hnd.1 (hbad ▸ List.mem_map_of_mem NumstatRec.path hmem2)
      rw [List.foldl_cons]
      have hstep : ∀ m : ChangeMap,
          (match m r.path with
           | some existing => cmSet m r.path (existing + r.added)
           | none => cmSet m r.path r.added) p = m p := by
        intro m
        cases m r.path with
        | none => exact cmSet_ne _ _ _ _ (Ne.symm hne)
        | some e => exact cmSet_ne _ _ _ _ (Ne.symm hne)
      have := ih (match acc r.path with
        | some existing => cmSet acc r.path (existing + r.added)
        | none => cmSet acc r.path r.added) hnd.2 hmem2
      rw [this, hstep]

theorem foldUntracked_ne (p : String) :
    ∀ (l : List String) (acc : ChangeMap), p ∉ l →
      l.foldl (fun m f => if f ≠ "" then cmSet m f (-1) else m) acc p = acc p := by
  intro l
  induction l with
  | nil => intro acc _; rfl
  | cons f rest ih =>
    intro acc hp
    simp only [List.mem_cons] at hp
    push_neg at hp
    rw [List.foldl_cons, ih _ hp.2]
    by_cases hf : f = ""
    · simp [hf]
    · simp [hf, cmSet_ne _ _ _ _ hp.1]

theorem foldUntracked_keep (p : String) :
    ∀ (l : List String) (acc : ChangeMap), acc p = some (-1) →
      l.foldl (fun m f => if f ≠ "" then cmSet m f (-1) else m) acc p = some (-1) := by
  intro l
  induction l with
  | nil => intro acc h; exact h
  | cons f rest ih =>
    intro acc h
    rw [List.foldl_cons]
    by_cases hf : f = ""
    · simp only [hf]
      exact ih _ (by simpa using h)
    · apply ih
      by_cases hfp : p = f
      · subst hfp; simp [hf, cmSet_self]
      · simp [hf, cmSet_ne _ _ _ _ hfp, h]

theorem foldUntracked_mem (p : String) (hne : p ≠ "") :
    ∀ (l : List String) (acc : ChangeMap), p ∈ l →
      l.foldl (fun m f => if f ≠ "" then cmSet m f (-1) else m) acc p = some (-1) := by
  intro l
  induction l with
  | nil => intro acc habs; cases habs
  | cons f rest ih =>
    intro acc hmem
    rw [List.foldl_cons]
    rcases List.mem_cons.mp hmem with heq | hmem2
    · subst heq
      apply foldUntracked_keep
      simp [hne, cmSet_self]
    · exact ih _ hmem2

/-- C4: GetAllGitDiffs merges unstaged and staged modifications by summing per
path; a path in exactly one category keeps its single count; every untracked
file maps to the sentinel -1 (its lines are never counted).  The Nodup
hypotheses state that each git listing names a path at most once, and the
non-membership hypotheses that git never reports a tracked diff path as
untracked — both guaranteed by git's output format. -/
theorem getAllGitDiffs_merge (unstaged staged : List NumstatRec) (untracked : List String)
    (hu : (unstaged.map NumstatRec.path).Nodup)
    (hs : (staged.map NumstatRec.path).Nodup) :
    (∀ p u s, (⟨u, p⟩ : NumstatRec) ∈ unstaged → (⟨s, p⟩ : NumstatRec) ∈ staged →
        p ∉ untracked → GetAllGitDiffs unstaged staged untracked p = some (u + s))
  ∧ (∀ p u, (⟨u, p⟩ : NumstatRec) ∈ unstaged → p ∉ staged.map NumstatRec.path →
        p ∉ untracked → GetAllGitDiffs unstaged staged untracked p = some u)
  ∧ (∀ p s, p ∉ unstaged.map NumstatRec.path → (⟨s, p⟩ : NumstatRec) ∈ staged →
        p ∉ untracked → GetAllGitDiffs unstaged staged untracked p = some s)
  ∧ (∀ p, p ∈ untracked → p ≠ "" →
        GetAllGitDiffs unstaged staged untracked p = some (-1)) := by
  refine ⟨?_, ?_, ?_, ?_⟩
  · intro p u s hmu hms hnt
    unfold GetAllGitDiffs
    rw [foldUntracked_ne _ _ _ hnt, foldStaged_mem _ _ _ _ hs hms,
        foldUnstaged_mem _ _ _ _ hu hmu]
    simp
  · intro p u hmu hns2 hnt
    unfold GetAllGitDiffs
    rw [foldUntracked_ne _ _ _ hnt, foldStaged_ne _ _ _ hns2,
        foldUnstaged_mem _ _ _ _ hu hmu]
  · intro p s hnu hms hnt
    unfold GetAllGitDiffs
    rw [foldUntracked_ne _ _ _ hnt, foldStaged_mem _ _ _ _ hs hms,
        foldUnstaged_ne _ _ _ hnu]
    simp
  · intro p hmem hne
    unfold GetAllGitDiffs
    exact foldUntracked_mem _ hne _ _ hmem

/-- Witness for C4: a path modified both unstaged (+2) and staged (+3) maps to
5; an untracked path maps to -1; a path only unstaged keeps its count. -/
theorem getAllGitDiffs_merge_witness :
    GetAllGitDiffs [⟨2, "b.go"⟩, ⟨7, "e.go"⟩] [⟨3, "b.go"⟩] ["c.go"] "b.go" = some 5
  ∧ GetAllGitDiffs [⟨2, "b.go"⟩, ⟨7, "e.go"⟩] [⟨3, "b.go"⟩] ["c.go"] "c.go" = some (-1)
  ∧ GetAllGitDiffs [⟨2, "b.go"⟩, ⟨7, "e.go"⟩] [⟨3, "b.go"⟩] ["c.go"] "e.go" = some 7 := by
  refine ⟨?_, ?_, ?_⟩
  · have h := (getAllGitDiffs_merge [⟨2, "b.go"⟩, ⟨7, "e.go"⟩] [⟨3, "b.go"⟩] ["c.go"]
      (by decide) (by decide)).1 "b.go" 2 3 (by decide) (by decide) (by decide)
    simpa using h
  · exact (getAllGitDiffs_merge [⟨2, "b.go"⟩, ⟨7, "e.go"⟩] [⟨3, "b.go"⟩] ["c.go"]
      (by decide) (by decide)).2.2.2 "c.go" (by decide) (by decide)
  · exact (getAllGitDiffs_merge [⟨2, "b.go"⟩, ⟨7, "e.go"⟩] [⟨3, "b.go"⟩] ["c.go"]
      (by decide) (by decide)).2.1 "e.go" 7 (by decide) (by decide) (by decide)

/-! ## Theorems: render pass (C6) -/

theorem highlightRender_no_newline (s : String) (h : s.data.contains '\n' = false) :
    (highlightRender s).data.contains '\n' = false := by
  have hd : (highlightRender s).data = "\x1b[7m".data ++ s.data ++ "\x1b[0m".data := by
    simp [highlightRender, String.data_append]
  rw [hd]
  simp at h ⊢
  exact h

/-- C6: the selection render is pure (same lines and cursor give byte-identical
output) and frame-preserving: the output is the newline join of exactly as many
newline-free lines as the cache holds, and every line other than the selected
one is textually identical to the unhighlighted cached line. -/
theorem renderTreeWithSelection_frame (lines : List String) (selectedLine : Int) :
    renderTreeWithSelectionOptimized lines selectedLine
      = renderTreeWithSelectionOptimized lines selectedLine
  ∧ ∃ out : List String,
      renderTreeWithSelectionOptimized lines selectedLine = String.intercalate "\n" out
      ∧ out.length = lines.length
      ∧ (∀ i : Nat, (i : Int) ≠ selectedLine → out.getD i "" = lines.getD i "")
      ∧ ((∀ s ∈ lines, s.data.contains '\n' = false) →
          ∀ s ∈ out, s.data.contains '\n' = false) := by
  refine ⟨rfl, ?_⟩
  by_cases h0 : lines.length = 0
  · refine ⟨[], ?_, ?_, ?_, ?_⟩
    · rw [renderTreeWithSelectionOptimized, if_pos h0]
      rfl
    · simp [h0]
    · intro i _
      rw [List.eq_nil_of_length_eq_zero h0]
    · intro _ s hs
      cases hs
  · by_cases hr : selectedLine < 0 ∨ (lines.length : Int) ≤ selectedLine
    · refine ⟨lines, ?_, rfl, fun i _ => rfl, fun h s hs => h s hs⟩
      simp [renderTreeWithSelectionOptimized, h0, hr]
    · push_neg at hr
      have hlt : selectedLine.toNat < lines.length := by omega
      have hcast : (selectedLine.toNat : Int) = selectedLine := by omega
      have hset : renderTreeWithSelectionOptimized lines selectedLine
          = String.intercalate "\n"
            (lines.set selectedLine.toNat
              (highlightRender (lines.getD selectedLine.toNat ""))) := by
        simp [renderTreeWithSelectionOptimized, h0]
        intro habs
        omega
      refine ⟨lines.set selectedLine.toNat
        (highlightRender (lines.getD selectedLine.toNat "")), hset, by simp, ?_, ?_⟩
      · intro i hi
        have hik : i ≠ selectedLine.toNat := by
          intro hbad
          apply hi
          rw [hbad, hcast]
        simp [List.getD, List.getElem?_set_ne (Ne.symm hik)]
      · intro h s hs
        rcases List.mem_or_eq_of_mem_set hs with hmem | heq
        · exact h s hmem
        · have hsel : lines.getD selectedLine.toNat "" ∈ lines := by
            rw [List.getD_eq_getElem lines "" hlt]
            exact List.getElem_mem hlt
          rw [heq]
          exact highlightRender_no_newline _ (h _ hsel)

/-- Witness for C6 at a concrete cache: the output of rendering two lines with
the cursor on line 0 is a newline join of exactly two lines. -/
theorem renderTreeWithSelection_frame_witness :
    ∃ out : List String,
      renderTreeWithSelectionOptimized ["a", "b"] 0 = String.intercalate "\n" out
      ∧ out.length = 2 := by
  obtain ⟨out, h1, h2, _, _⟩ := (renderTreeWithSelection_frame ["a", "b"] 0).2
  exact ⟨out, h1, by rw [h2]; rfl⟩

/-! ## Theorems: ignore-rule matcher (C7) -/

theorem singleton_isPrefixOf_false (c : Char) (l : List Char)
    (h : l.contains c = false) : [c].isPrefixOf l = false := by
  cases l with
  | nil => rfl
  | cons a t =>
    simp [List.isPrefixOf] at h ⊢
    tauto

theorem hasPre_slash_false (p : String) (h : p.data.contains '/' = false) :
    goHasPre p "/" = false := by
  have hd : ("/" : String).data = ['/'] := by decide
  unfold goHasPre
  rw [hd]
  exact singleton_isPrefixOf_false _ _ h

theorem hasSuf_slash_false (p : String) (h : p.data.contains '/' = false) :
    goHasSuf p "/" = false := by
  have hd : ("/" : String).data = ['/'] := by decide
  unfold goHasSuf
  rw [hd]
  unfold List.isSuffixOf
  have hrev : p.data.reverse.contains '/' = false := by
    simp at h ⊢
    exact h
  exact singleton_isPrefixOf_false _ _ hrev

theorem matchPattern_no_slash_hits (fpMatch : String → String → Bool)
    (path pattern : String) (hns : pattern.data.contains '/' = false)
    (hhit : fpMatch pattern (goBase path) = true
            ∨ ∃ part ∈ goSplitSlash path, fpMatch pattern part = true) :
    matchPattern fpMatch path pattern = true := by
  have hpre : goHasPre pattern "/" = false := hasPre_slash_false _ hns
  have hsuf : goHasSuf pattern "/" = false := hasSuf_slash_false _ hns
  have hp1 : goTrimPre pattern "/" = pattern := by simp [goTrimPre, hpre]
  simp only [matchPattern, hp1, hsuf, Bool.false_and, if_neg (by simp : ¬ False)]
  rcases hhit with hbase | ⟨part, hmem, hfp⟩
  · simp [hbase]
  · have hseg : (goSplitSlash path).any (fun part => fpMatch pattern part) = true :=
      List.any_eq_true.mpr ⟨part, hmem, hfp⟩
    have hns2 : '/' ∉ pattern.data := by simpa using hns
    simp [hseg, hns2]

/-- C7: for a pattern containing no slash, IsIgnored reports a match for every
root-relative path whose basename, or any single path segment, the pattern
matches — so a pattern like *.log matches files at any depth. -/
theorem isIgnored_basename_or_segment (fpMatch : String → String → Bool)
    (patterns : List String) (pattern path : String)
    (hmem : pattern ∈ patterns)
    (hns : pattern.data.contains '/' = false)
    (hhit : fpMatch pattern (goBase path) = true
            ∨ ∃ part ∈ goSplitSlash path, fpMatch pattern part = true) :
    IsIgnoredRel fpMatch patterns path = true := by
  unfold IsIgnoredRel
  rw [List.any_eq_true]
  exact ⟨pattern, hmem, matchPattern_no_slash_hits fpMatch path pattern hns hhit⟩

/-- Witness for C7: with literal string equality as the glob matcher, the
pattern x.log (no slash) matches the deep path a/b/x.log by its basename. -/
theorem isIgnored_basename_or_segment_witness :
    IsIgnoredRel (fun pat s => pat == s) ["x.log"] "a/b/x.log" = true :=
  isIgnored_basename_or_segment (fun pat s => pat == s) ["x.log"] "x.log" "a/b/x.log"
    (by decide) (by decide) (Or.inl (by decide))

/-! ## Theorems: tree builder structure (C9, C10, C3) -/

/-- Induction over directory listings, descending into subdirectory
listings. -/
theorem fs_ind (P : List FSEntry → Prop) (h1 : P [])
    (h2 : ∀ n rest, P rest → P (FSEntry.file n :: rest))
    (h3 : ∀ n r cs rest, P cs → P rest → P (FSEntry.dir n r cs :: rest)) :
    ∀ es, P es
  | [] => h1
  | FSEntry.file n :: rest => h2 n rest (fs_ind P h1 h2 h3 rest)
  | FSEntry.dir n r cs :: rest =>
    h3 n r cs rest (fs_ind P h1 h2 h3 cs) (fs_ind P h1 h2 h3 rest)

theorem filesFrom_append : ∀ (a b : List (Bool × List String)) (ln : Nat),
    filesFrom ln (a ++ b) = filesFrom ln a ++ filesFrom (ln + a.length) b := by
  intro a
  induction a with
  | nil => intro b ln; simp [filesFrom]
  | cons e rest ih =>
    intro b ln
    obtain ⟨isDir, p⟩ := e
    have harith : ln + 1 + rest.length = ln + (rest.length + 1) := by omega
    by_cases hd : isDir
    · simp [filesFrom, hd, ih, harith]
    · simp [filesFrom, hd, ih, harith]

theorem dirsFrom_append : ∀ (a b : List (Bool × List String)) (ln : Nat),
    dirsFrom ln (a ++ b) = dirsFrom ln a ++ dirsFrom (ln + a.length) b := by
  intro a
  induction a with
  | nil => intro b ln; simp [dirsFrom]
  | cons e rest ih =>
    intro b ln
    obtain ⟨isDir, p⟩ := e
    have harith : ln + 1 + rest.length = ln + (rest.length + 1) := by omega
    by_cases hd : isDir
    · simp [dirsFrom, hd, ih, harith]
    · simp [dirsFrom, hd, ih, harith]

/-- Master correspondence: the builder's indexes are exactly the file/directory
projections of the depth-first pre-order entry listing, with consecutive line
numbers from the threaded counter, and the counter advances by one per
rendered entry. -/
theorem buildList_spec (cfg : BuildCfg) : ∀ es rp ln,
    (buildList cfg rp ln es).fileMap = filesFrom ln (entriesOf cfg rp es)
  ∧ (buildList cfg rp ln es).dirMap = dirsFrom ln (entriesOf cfg rp es)
  ∧ (buildList cfg rp ln es).nextLine = ln + (entriesOf cfg rp es).length := by
  intro es
  induction es using fs_ind with
  | h1 =>
    intro rp ln
    simp [buildList, entriesOf, filesFrom, dirsFrom]
  | h2 n rest ih =>
    intro rp ln
    by_cases hskip : skipEntry cfg (rp ++ [n]) n
    · simpa [buildList, entriesOf, hskip] using ih rp ln
    · obtain ⟨ihf, ihd, ihn⟩ := ih rp (ln + 1)
      simp [buildList, entriesOf, hskip, filesFrom, dirsFrom, ihf, ihd, ihn]
      omega
  | h3 n r cs rest ihc ih =>
    intro rp ln
    by_cases hskip : skipEntry cfg (rp ++ [n]) n
    · simpa [buildList, entriesOf, hskip] using ih rp ln
    · by_cases hexp : shouldExpand cfg (rp ++ [n])
      · by_cases hrd : r = true
        · obtain ⟨ihcf, ihcd, ihcn⟩ := ihc (rp ++ [n]) (ln + 1)
          obtain ⟨ihf, ihd, ihn⟩ :=
            ih rp ((buildList cfg (rp ++ [n]) (ln + 1) cs).nextLine)
          rw [ihcn] at ihf ihd ihn
          simp [buildList, entriesOf, hskip, hexp, hrd, filesFrom, dirsFrom,
                filesFrom_append, dirsFrom_append, ihcf, ihcd, ihcn, ihf, ihd, ihn]
          omega
        · obtain ⟨ihf, ihd, ihn⟩ := ih rp (ln + 1)
          simp [buildList, entriesOf, hskip, hexp, hrd, filesFrom, dirsFrom,
                ihf, ihd, ihn]
          omega
      · obtain ⟨ihf, ihd, ihn⟩ := ih rp (ln + 1)
        simp [buildList, entriesOf, hskip, hexp, filesFrom, dirsFrom, ihf, ihd, ihn]
        omega

theorem filesFrom_key_lb : ∀ (E : List (Bool × List String)) (ln k : Nat) (p : List String),
    (k, p) ∈ filesFrom ln E → ln ≤ k := by
  intro E
  induction E with
  | nil => intro ln k p h; cases h
  | cons e rest ih =>
    intro ln k p h
    obtain ⟨isDir, q⟩ := e
    by_cases hd : isDir
    · rw [filesFrom, if_pos hd] at h
      exact Nat.le_of_succ_le (ih (ln + 1) k p h)
    · rw [filesFrom, if_neg hd] at h
      rcases List.mem_cons.mp h with heq | hmem
      · simp at heq
        omega
      · exact Nat.le_of_succ_le (ih (ln + 1) k p hmem)

theorem dirsFrom_key_lb : ∀ (E : List (Bool × List String)) (ln k : Nat) (p : List String),
    (k, p) ∈ dirsFrom ln E → ln ≤ k := by
  intro E
  induction E with
  | nil => intro ln k p h; cases h
  | cons e rest ih =>
    intro ln k p h
    obtain ⟨isDir, q⟩ := e
    by_cases hd : isDir
    · rw [dirsFrom, if_pos hd] at h
      rcases List.mem_cons.mp h with heq | hmem
      · simp at heq
        omega
      · exact Nat.le_of_succ_le (ih (ln + 1) k p hmem)
    · rw [dirsFrom, if_neg hd] at h
      exact Nat.le_of_succ_le (ih (ln + 1) k p h)

theorem filesFrom_key_ub : ∀ (E : List (Bool × List String)) (ln k : Nat) (p : List String),
    (k, p) ∈ filesFrom ln E → k < ln + E.length := by
  intro E
  induction E with
  | nil => intro ln k p h; cases h
  | cons e rest ih =>
    intro ln k p h
    obtain ⟨isDir, q⟩ := e
    by_cases hd : isDir
    · rw [filesFrom, if_pos hd] at h
      have := ih (ln + 1) k p h
      simp
      omega
    · rw [filesFrom, if_neg hd] at h
      rcases List.mem_cons.mp h with heq | hmem
      · simp at heq
        simp
        omega
      · have := ih (ln + 1) k p hmem
        simp
        omega

theorem dirsFrom_key_ub : ∀ (E : List (Bool × List String)) (ln k : Nat) (p : List String),
    (k, p) ∈ dirsFrom ln E → k < ln + E.length := by
  intro E
  induction E with
  | nil => intro ln k p h; cases h
  | cons e rest ih =>
    intro ln k p h
    obtain ⟨isDir, q⟩ := e
    by_cases hd : isDir
    · rw [dirsFrom, if_pos hd] at h
      rcases List.mem_cons.mp h with heq | hmem
      · simp at heq
        simp
        omega
      · have := ih (ln + 1) k p hmem
        simp
        omega
    · rw [dirsFrom, if_neg hd] at h
      have := ih (ln + 1) k p h
      simp
      omega

/-- No line number is a key of both the file index and the directory index. -/
theorem filesFrom_dirsFrom_disjoint :
    ∀ (E : List (Bool × List String)) (ln k : Nat) (p q : List String),
    (k, p) ∈ filesFrom ln E → (k, q) ∈ dirsFrom ln E → False := by
  intro E
  induction E with
  | nil => intro ln k p q h; cases h
  | cons e rest ih =>
    intro ln k p q hf hd2
    obtain ⟨isDir, w⟩ := e
    by_cases hd : isDir
    · rw [filesFrom, if_pos hd] at hf
      rw [dirsFrom, if_pos hd] at hd2
      rcases List.mem_cons.mp hd2 with heq | hmem
      · have := filesFrom_key_lb rest (ln + 1) k p hf
        simp at heq
        omega
      · exact ih (ln + 1) k p q hf hmem
    · rw [filesFrom, if_neg hd] at hf
      rw [dirsFrom, if_neg hd] at hd2
      rcases List.mem_cons.mp hf with heq | hmem
      · have := dirsFrom_key_lb rest (ln + 1) k q hd2
        simp at heq
        omega
      · exact ih (ln + 1) k p q hmem hd2

theorem filesFrom_mem_getD :
    ∀ (E : List (Bool × List String)) (ln i : Nat), i < E.length →
    (E.getD i (true, [])).1 = false →
    (ln + i, (E.getD i (true, [])).2) ∈ filesFrom ln E := by
  intro E
  induction E with
  | nil => intro ln i h; simp at h
  | cons e rest ih =>
    intro ln i hlen hfile
    obtain ⟨isDir, q⟩ := e
    cases i with
    | zero =>
      simp at hfile
      simp [filesFrom, hfile]
    | succ j =>
      have hlen2 : j < rest.length := by simpa using hlen
      have hfile2 : (rest.getD j (true, [])).1 = false := by simpa using hfile
      have hmem := ih (ln + 1) j hlen2 hfile2
      have harith : ln + (j + 1) = ln + 1 + j := by omega
      by_cases hd : isDir
      · rw [filesFrom, if_pos hd]
        simpa [harith] using hmem
      · rw [filesFrom, if_neg hd]
        refine List.mem_cons_of_mem _ ?_
        simpa [harith] using hmem

theorem dirsFrom_mem_getD :
    ∀ (E : List (Bool × List String)) (ln i : Nat), i < E.length →
    (E.getD i (false, [])).1 = true →
    (ln + i, (E.getD i (false, [])).2) ∈ dirsFrom ln E := by
  intro E
  induction E with
  | nil => intro ln i h; simp at h
  | cons e rest ih =>
    intro ln i hlen hdir
    obtain ⟨isDir, q⟩ := e
    cases i with
    | zero =>
      simp at hdir
      simp [dirsFrom, hdir]
    | succ j =>
      have hlen2 : j < rest.length := by simpa using hlen
      have hdir2 : (rest.getD j (false, [])).1 = true := by simpa using hdir
      have hmem := ih (ln + 1) j hlen2 hdir2
      have harith : ln + (j + 1) = ln + 1 + j := by omega
      by_cases hd : isDir
      · rw [dirsFrom, if_pos hd]
        refine List.mem_cons_of_mem _ ?_
        simpa [harith] using hmem
      · rw [dirsFrom, if_neg hd]
        simpa [harith] using hmem

theorem lookupAt_none_of_lb (mp : List (Nat × List String))
    (h : ∀ k p, (k, p) ∈ mp → 1 ≤ k) : lookupAt mp 0 = none := by
  induction mp with
  | nil => rfl
  | cons e rest ih =>
    obtain ⟨k, p⟩ := e
    have hk : 1 ≤ k := h k p (List.mem_cons_self _ _)
    have hne : (((k : Nat) : Int) == (0 : Int)) = false := by
      simp
      omega
    unfold lookupAt
    rw [List.find?_cons, hne]
    exact ih (fun a b hab => h a b (List.mem_cons_of_mem _ hab))

/-- C9: in every index pair produced by one build, no line number keys both
mappings, and line numbers are assigned in strict depth-first pre-order
matching the rendered text: the builder's indexes equal the file/directory
projections of the pre-order entry listing with consecutive line numbers from
1, the i-th rendered entry (0-based) occupies line 1 + i in exactly one of the
two indexes, and the final counter is 1 + the number of entries. -/
theorem positionIndex_preorder (cfg : BuildCfg) (fs : List FSEntry) :
    (buildTreeWithMaps cfg fs).fileMap = filesFrom 1 (entriesOf cfg [] fs)
  ∧ (buildTreeWithMaps cfg fs).dirMap = dirsFrom 1 (entriesOf cfg [] fs)
  ∧ (∀ k p q, (k, p) ∈ (buildTreeWithMaps cfg fs).fileMap →
      (k, q) ∈ (buildTreeWithMaps cfg fs).dirMap → False)
  ∧ (∀ i, i < (entriesOf cfg [] fs).length →
      ((entriesOf cfg [] fs).getD i (true, [])).1 = false →
      (1 + i, ((entriesOf cfg [] fs).getD i (true, [])).2)
        ∈ (buildTreeWithMaps cfg fs).fileMap)
  ∧ (∀ i, i < (entriesOf cfg [] fs).length →
      ((entriesOf cfg [] fs).getD i (false, [])).1 = true →
      (1 + i, ((entriesOf cfg [] fs).getD i (false, [])).2)
        ∈ (buildTreeWithMaps cfg fs).dirMap)
  ∧ (buildTreeWithMaps cfg fs).nextLine = 1 + (entriesOf cfg [] fs).length := by
  obtain ⟨hf, hd, hn⟩ := buildList_spec cfg fs [] 1
  have hbf : (buildTreeWithMaps cfg fs).fileMap = filesFrom 1 (entriesOf cfg [] fs) := by
    simpa [buildTreeWithMaps] using hf
  have hbd : (buildTreeWithMaps cfg fs).dirMap = dirsFrom 1 (entriesOf cfg [] fs) := by
    simpa [buildTreeWithMaps] using hd
  have hbn : (buildTreeWithMaps cfg fs).nextLine = 1 + (entriesOf cfg [] fs).length := by
    simpa [buildTreeWithMaps] using hn
  refine ⟨hbf, hbd, ?_, ?_, ?_, hbn⟩
  · intro k p q hkf hkd
    rw [hbf] at hkf
    rw [hbd] at hkd
    exact filesFrom_dirsFrom_disjoint _ 1 k p q hkf hkd
  · intro i hi hfile
    rw [hbf]
    exact filesFrom_mem_getD _ 1 i hi hfile
  · intro i hi hdir
    rw [hbd]
    exact dirsFrom_mem_getD _ 1 i hi hdir

/-- Witness for C9 at a concrete listing (one file, one expanded directory
holding one file): entry 1 (the directory) sits at line 2 of the directory
index, and no key of the file index also keys the directory index. -/
theorem positionIndex_preorder_witness :
    (2, ["sub"])
      ∈ (buildTreeWithMaps ⟨fun _ => false, true, false, [["sub"]], false⟩
          [FSEntry.file "a.go", FSEntry.dir "sub" true [FSEntry.file "d.go"]]).dirMap
  ∧ ¬ ((1, ["a.go"])
        ∈ (buildTreeWithMaps ⟨fun _ => false, true, false, [["sub"]], false⟩
            [FSEntry.file "a.go", FSEntry.dir "sub" true [FSEntry.file "d.go"]]).fileMap
      ∧ (1, ["a.go"])
        ∈ (buildTreeWithMaps ⟨fun _ => false, true, false, [["sub"]], false⟩
            [FSEntry.file "a.go", FSEntry.dir "sub" true [FSEntry.file "d.go"]]).dirMap) := by
  constructor
  · have h := (positionIndex_preorder ⟨fun _ => false, true, false, [["sub"]], false⟩
      [FSEntry.file "a.go", FSEntry.dir "sub" true [FSEntry.file "d.go"]]).2.2.2.2.1 1
      (by simp [entriesOf, skipEntry, shouldExpand, goHasPre])
      (by simp [entriesOf, skipEntry, shouldExpand, goHasPre])
    have he : entriesOf ⟨fun _ => false, true, false, [["sub"]], false⟩ []
        [FSEntry.file "a.go", FSEntry.dir "sub" true [FSEntry.file "d.go"]]
        = [(false, ["a.go"]), (true, ["sub"]), (false, ["sub", "d.go"])] := by
      simp [entriesOf, skipEntry, shouldExpand, goHasPre]
    rw [he] at h
    simpa using h
  · intro hand
    exact (positionIndex_preorder ⟨fun _ => false, true, false, [["sub"]], false⟩
      [FSEntry.file "a.go", FSEntry.dir "sub" true [FSEntry.file "d.go"]]).2.2.1
      1 ["a.go"] ["a.go"] hand.1 hand.2

/-- C10: all keys of both indexes are at least 1: line 0 is the root
directory's own label and belongs to neither index, so no line lookup ever
resolves line 0 or yields the root's (empty) relative path, and the
selection-based operations that resolve the cursor through these indexes can
never address the root. -/
theorem root_line_unaddressed (cfg : BuildCfg) (fs : List FSEntry) :
    (∀ k p, (k, p) ∈ (buildTreeWithMaps cfg fs).fileMap → 1 ≤ k)
  ∧ (∀ k p, (k, p) ∈ (buildTreeWithMaps cfg fs).dirMap → 1 ≤ k)
  ∧ lookupAt (buildTreeWithMaps cfg fs).fileMap 0 = none
  ∧ lookupAt (buildTreeWithMaps cfg fs).dirMap 0 = none := by
  obtain ⟨hbf, hbd, _, _, _, _⟩ := positionIndex_preorder cfg fs
  have h1 : ∀ k p, (k, p) ∈ (buildTreeWithMaps cfg fs).fileMap → 1 ≤ k := by
    intro k p hk
    rw [hbf] at hk
    exact filesFrom_key_lb _ 1 k p hk
  have h2 : ∀ k p, (k, p) ∈ (buildTreeWithMaps cfg fs).dirMap → 1 ≤ k := by
    intro k p hk
    rw [hbd] at hk
    exact dirsFrom_key_lb _ 1 k p hk
  exact ⟨h1, h2, lookupAt_none_of_lb _ h1, lookupAt_none_of_lb _ h2⟩

/-- Witness for C10: with the concrete build of the C9 witness, looking up
line 0 in either index resolves nothing. -/
theorem root_line_unaddressed_witness :
    lookupAt (buildTreeWithMaps ⟨fun _ => false, true, false, [["sub"]], false⟩
        [FSEntry.file "a.go", FSEntry.dir "sub" true [FSEntry.file "d.go"]]).fileMap 0 = none
  ∧ lookupAt (buildTreeWithMaps ⟨fun _ => false, true, false, [["sub"]], false⟩
        [FSEntry.file "a.go", FSEntry.dir "sub" true [FSEntry.file "d.go"]]).dirMap 0 = none :=
  ⟨(root_line_unaddressed ⟨fun _ => false, true, false, [["sub"]], false⟩
      [FSEntry.file "a.go", FSEntry.dir "sub" true [FSEntry.file "d.go"]]).2.2.1,
   (root_line_unaddressed ⟨fun _ => false, true, false, [["sub"]], false⟩
      [FSEntry.file "a.go", FSEntry.dir "sub" true [FSEntry.file "d.go"]]).2.2.2⟩

theorem wfList_tail_file (n : String) (rest : List FSEntry)
    (h : wfList (FSEntry.file n :: rest)) :
    wfList rest ∧ n ∉ rest.map entryName := by
  obtain ⟨hnd, haux⟩ := h
  simp only [List.map_cons, entryName, List.nodup_cons] at hnd
  simp only [wfAux] at haux
  exact ⟨⟨hnd.2, haux⟩, hnd.1⟩

theorem wfList_tail_dir (n : String) (r : Bool) (cs rest : List FSEntry)
    (h : wfList (FSEntry.dir n r cs :: rest)) :
    wfList cs ∧ wfList rest ∧ n ∉ rest.map entryName := by
  obtain ⟨hnd, haux⟩ := h
  simp only [List.map_cons, entryName, List.nodup_cons] at hnd
  simp only [wfAux] at haux
  exact ⟨⟨haux.1.1, haux.1.2⟩, ⟨hnd.2, haux.2⟩, hnd.1⟩

/-- Every rendered entry's path extends the relative path of the directory
being listed by at least one segment, the first being a sibling name. -/
theorem entriesOf_shape (cfg : BuildCfg) : ∀ es rp e, e ∈ entriesOf cfg rp es →
    ∃ n t, n ∈ es.map entryName ∧ e.2 = rp ++ n :: t := by
  intro es
  induction es using fs_ind with
  | h1 =>
    intro rp e h
    simp [entriesOf] at h
  | h2 n rest ih =>
    intro rp e h
    by_cases hskip : skipEntry cfg (rp ++ [n]) n
    · simp only [entriesOf, if_pos hskip] at h
      obtain ⟨n2, t, hn2, he⟩ := ih rp e h
      exact ⟨n2, t, by simp [entryName, hn2], he⟩
    · simp only [entriesOf, if_neg hskip] at h
      rcases List.mem_cons.mp h with heq | hmem
      · exact ⟨n, [], by simp [entryName], by simp [heq]⟩
      · obtain ⟨n2, t, hn2, he⟩ := ih rp e hmem
        exact ⟨n2, t, by simp [entryName]; right; simpa using hn2, he⟩
  | h3 n r cs rest ihc ih =>
    intro rp e h
    by_cases hskip : skipEntry cfg (rp ++ [n]) n
    · simp only [entriesOf, if_pos hskip] at h
      obtain ⟨n2, t, hn2, he⟩ := ih rp e h
      exact ⟨n2, t, by simp [entryName]; right; simpa using hn2, he⟩
    · by_cases hexp : shouldExpand cfg (rp ++ [n])
      · simp only [entriesOf, if_neg hskip, if_pos hexp] at h
        rcases List.mem_cons.mp h with heq | hmem
        · exact ⟨n, [], by simp [entryName], by simp [heq]⟩
        · rcases List.mem_append.mp hmem with hsub | hrest
          · have hsub2 : e ∈ entriesOf cfg (rp ++ [n]) cs := by
              by_cases hrd : r = true
              · simpa [hrd] using hsub
              · simp [hrd] at hsub
            obtain ⟨n2, t, _, he⟩ := ihc (rp ++ [n]) e hsub2
            refine ⟨n, n2 :: t, by simp [entryName], ?_⟩
            rw [he, List.append_assoc]
            rfl
          · obtain ⟨n2, t, hn2, he⟩ := ih rp e hrest
            exact ⟨n2, t, by simp [entryName]; right; simpa using hn2, he⟩
      · simp only [entriesOf, if_neg hskip, if_neg hexp] at h
        rcases List.mem_cons.mp h with heq | hmem
        · exact ⟨n, [], by simp [entryName], by simp [heq]⟩
        · obtain ⟨n2, t, hn2, he⟩ := ih rp e hmem
          exact ⟨n2, t, by simp [entryName]; right; simpa using hn2, he⟩

/-- Under sibling-name well-formedness the rendered entries carry pairwise
distinct relative paths. -/
theorem entriesOf_paths_nodup (cfg : BuildCfg) : ∀ es rp, wfList es →
    ((entriesOf cfg rp es).map (fun e => e.2)).Nodup := by
  intro es
  induction es using fs_ind with
  | h1 =>
    intro rp _
    simp [entriesOf]
  | h2 n rest ih =>
    intro rp hwf
    obtain ⟨hwfr, hnotin⟩ := wfList_tail_file n rest hwf
    by_cases hskip : skipEntry cfg (rp ++ [n]) n
    · simpa [entriesOf, hskip] using ih rp hwfr
    · simp only [entriesOf, if_neg hskip, List.map_cons, List.nodup_cons]
      refine ⟨?_, ih rp hwfr⟩
      intro hmem
      obtain ⟨e, he, heq⟩ := List.mem_map.mp hmem
      obtain ⟨n2, t, hn2, hsh⟩ := entriesOf_shape cfg rest rp e he
      have hqe : rp ++ n2 :: t = rp ++ [n] := by rw [← hsh, heq]
      have hcan := List.append_cancel_left hqe
      injection hcan with h1 h2
      exact hnotin (h1 ▸ hn2)
  | h3 n r cs rest ihc ih =>
    intro rp hwf
    obtain ⟨hwfc, hwfr, hnotin⟩ := wfList_tail_dir n r cs rest hwf
    by_cases hskip : skipEntry cfg (rp ++ [n]) n
    · simpa [entriesOf, hskip] using ih rp hwfr
    · by_cases hexp : shouldExpand cfg (rp ++ [n])
      · have hsubN : (((if r = true then entriesOf cfg (rp ++ [n]) cs else []).map
            (fun e => e.2))).Nodup := by
          by_cases hrd : r = true
          · simpa [hrd] using ihc (rp ++ [n]) hwfc
          · simp [hrd]
        have hsubShape : ∀ q, q ∈ ((if r = true then entriesOf cfg (rp ++ [n]) cs
            else []).map (fun e => e.2)) → ∃ u, q = rp ++ n :: u ∧ u ≠ [] := by
          intro q hq
          by_cases hrd : r = true
          · rw [if_pos hrd] at hq
            obtain ⟨e, he, heq⟩ := List.mem_map.mp hq
            obtain ⟨n2, t, _, hsh⟩ := entriesOf_shape cfg cs (rp ++ [n]) e he
            refine ⟨n2 :: t, ?_, by simp⟩
            rw [← heq, hsh, List.append_assoc]
            rfl
          · simp [hrd] at hq
        have hrestShape : ∀ q, q ∈ ((entriesOf cfg rp rest).map (fun e => e.2)) →
            ∃ n2 t, n2 ∈ rest.map entryName ∧ q = rp ++ n2 :: t := by
          intro q hq
          obtain ⟨e, he, heq⟩ := List.mem_map.mp hq
          obtain ⟨n2, t, hn2, hsh⟩ := entriesOf_shape cfg rest rp e he
          exact ⟨n2, t, hn2, by rw [← heq, hsh]⟩
        simp only [entriesOf, if_neg hskip, if_pos hexp, List.map_cons, List.map_append,
          List.nodup_cons]
        constructor
        · intro hmem
          rcases List.mem_append.mp hmem with hq | hq
          · obtain ⟨u, hqe, hune⟩ := hsubShape _ hq
            have hcan := List.append_cancel_left hqe
            injection hcan with h1 h2
            exact hune h2.symm
          · obtain ⟨n2, t, hn2, hqe⟩ := hrestShape _ hq
            have hcan := List.append_cancel_left hqe
            injection hcan with h1 h2
            exact hnotin (h1 ▸ hn2)
        · refine List.Nodup.append hsubN (ih rp hwfr) ?_
          intro q hq1 hq2
          obtain ⟨u, hqe1, _⟩ := hsubShape q hq1
          obtain ⟨n2, t, hn2, hqe2⟩ := hrestShape q hq2
          rw [hqe1] at hqe2
          have hcan := List.append_cancel_left hqe2
          injection hcan with h1 h2
          exact hnotin (h1 ▸ hn2)
      · simp only [entriesOf, if_neg hskip, if_neg hexp, List.map_cons, List.nodup_cons]
        refine ⟨?_, ih rp hwfr⟩
        intro hmem
        obtain ⟨e, he, heq⟩ := List.mem_map.mp hmem
        obtain ⟨n2, t, hn2, hsh⟩ := entriesOf_shape cfg rest rp e he
        have hqe : rp ++ n2 :: t = rp ++ [n] := by rw [← hsh, heq]
        have hcan := List.append_cancel_left hqe
        injection hcan with h1 h2
        exact hnotin (h1 ▸ hn2)

theorem prefix_seg (rp : List String) (a b : String) (u t : List String)
    (h : (rp ++ a :: u) <+: (rp ++ b :: t)) : a = b ∧ u <+: t := by
  have h2 := (List.prefix_append_right_inj rp).mp h
  exact List.cons_prefix_cons.mp h2

/-- A directory rendered collapsed (its expansion decision is negative) has no
rendered entry strictly below it: no other entry's path extends its path. -/
theorem entriesOf_no_extend (cfg : BuildCfg) : ∀ es rp, wfList es →
    ∀ d, (true, d) ∈ entriesOf cfg rp es → shouldExpand cfg d = false →
    ∀ e ∈ entriesOf cfg rp es, e.2 ≠ d → ¬ (d <+: e.2) := by
  intro es
  induction es using fs_ind with
  | h1 =>
    intro rp _ d hd
    simp [entriesOf] at hd
  | h2 n rest ih =>
    intro rp hwf d hd hne e he hne2 hpre
    obtain ⟨hwfr, hnotin⟩ := wfList_tail_file n rest hwf
    by_cases hskip : skipEntry cfg (rp ++ [n]) n
    · simp only [entriesOf, if_pos hskip] at hd he
      exact ih rp hwfr d hd hne e he hne2 hpre
    · simp only [entriesOf, if_neg hskip] at hd he
      rcases List.mem_cons.mp hd with hh | hd2
      · simp at hh
      · rcases List.mem_cons.mp he with heh | he2
        · obtain ⟨nd, td, hndm, hdsh⟩ := entriesOf_shape cfg rest rp (true, d) hd2
          have hdd : d = rp ++ nd :: td := hdsh
          have hee : e.2 = rp ++ n :: [] := by rw [heh]
          rw [hdd, hee] at hpre
          obtain ⟨hnd, htd⟩ := prefix_seg rp nd n td [] hpre
          have htde : td = [] := List.prefix_nil.mp htd
          apply hne2
          rw [hee, hdd, hnd, htde]
        · exact ih rp hwfr d hd2 hne e he2 hne2 hpre
  | h3 n r cs rest ihc ih =>
    intro rp hwf d hd hne e he hne2 hpre
    obtain ⟨hwfc, hwfr, hnotin⟩ := wfList_tail_dir n r cs rest hwf
    by_cases hskip : skipEntry cfg (rp ++ [n]) n
    · simp only [entriesOf, if_pos hskip] at hd he
      exact ih rp hwfr d hd hne e he hne2 hpre
    · by_cases hexp : shouldExpand cfg (rp ++ [n])
      · simp only [entriesOf, if_neg hskip, if_pos hexp] at hd he
        have hsubShape : ∀ x, x ∈ (if r = true then entriesOf cfg (rp ++ [n]) cs
            else []) → ∃ u, x.2 = rp ++ n :: u ∧ u ≠ [] := by
          intro x hx
          by_cases hrd : r = true
          · rw [if_pos hrd] at hx
            obtain ⟨n2, t, _, hsh⟩ := entriesOf_shape cfg cs (rp ++ [n]) x hx
            refine ⟨n2 :: t, ?_, by simp⟩
            rw [hsh, List.append_assoc]
            rfl
          · simp [hrd] at hx
        rcases List.mem_cons.mp hd with hh | hd2
        · have hdd : d = rp ++ [n] := by
            have := Prod.mk.injEq .. ▸ hh
            simpa using hh
          rw [hdd] at hne
          rw [hne] at hexp
          cases hexp
        · rcases List.mem_append.mp hd2 with hdsub | hdrest
          · obtain ⟨ud, hdsh, hudne⟩ := hsubShape _ hdsub
            have hdd2 : d = rp ++ n :: ud := hdsh
            rcases List.mem_cons.mp he with heh | he2
            · have hee : e.2 = rp ++ [n] := by rw [heh]
              have hlen := hpre.length_le
              rw [hdd2, hee] at hlen
              simp only [List.length_append, List.length_cons, List.length_nil] at hlen
              have hpos : 0 < ud.length := List.length_pos.mpr hudne
              omega
            · rcases List.mem_append.mp he2 with hesub | herest
              · have hrd : r = true := by
                  by_cases hrd : r = true
                  · exact hrd
                  · simp [hrd] at hdsub
                rw [if_pos hrd] at hdsub hesub
                exact ihc (rp ++ [n]) hwfc d hdsub hne e hesub hne2 hpre
              · obtain ⟨ne2, te, hnem, hesh⟩ := entriesOf_shape cfg rest rp e herest
                rw [hdd2, hesh] at hpre
                obtain ⟨hnn, _⟩ := prefix_seg rp n ne2 ud te hpre
                exact hnotin (hnn ▸ hnem)
          · obtain ⟨nd, td, hndm, hdsh⟩ := entriesOf_shape cfg rest rp (true, d) hdrest
            have hdd : d = rp ++ nd :: td := hdsh
            have hndn : nd ≠ n := by
              intro hbad
              exact hnotin (hbad ▸ hndm)
            rcases List.mem_cons.mp he with heh | he2
            · have hee : e.2 = rp ++ n :: [] := by rw [heh]
              rw [hdd, hee] at hpre
              obtain ⟨hnn, _⟩ := prefix_seg rp nd n td [] hpre
              exact hndn hnn
            · rcases List.mem_append.mp he2 with hesub | herest
              · obtain ⟨ue, hesh, _⟩ := hsubShape _ hesub
                rw [hdd, hesh] at hpre
                obtain ⟨hnn, _⟩ := prefix_seg rp nd n td ue hpre
                exact hndn hnn
              · exact ih rp hwfr d hdrest hne e herest hne2 hpre
      · simp only [entriesOf, if_neg hskip, if_neg hexp] at hd he
        rcases List.mem_cons.mp hd with hh | hd2
        · have hdd : d = rp ++ [n] := by simpa using hh
          rcases List.mem_cons.mp he with heh | he2
          · apply hne2
            rw [heh, hdd]
          · obtain ⟨ne2, te, hnem, hesh⟩ := entriesOf_shape cfg rest rp e he2
            rw [hdd, hesh] at hpre
            have hpre2 : (rp ++ n :: []) <+: (rp ++ ne2 :: te) := hpre
            obtain ⟨hnn, _⟩ := prefix_seg rp n ne2 [] te hpre2
            exact hnotin (hnn ▸ hnem)
        · obtain ⟨nd, td, hndm, hdsh⟩ := entriesOf_shape cfg rest rp (true, d) hd2
          have hdd : d = rp ++ nd :: td := hdsh
          have hndn : nd ≠ n := by
            intro hbad
            exact hnotin (hbad ▸ hndm)
          rcases List.mem_cons.mp he with heh | he2
          · have hee : e.2 = rp ++ n :: [] := by rw [heh]
            rw [hdd, hee] at hpre
            obtain ⟨hnn, _⟩ := prefix_seg rp nd n td [] hpre
            exact hndn hnn
          · exact ih rp hwfr d hd2 hne e he2 hne2 hpre

/-- Every directory the builder reads below the root passed its expansion
decision: collapsed directories are never passed to os.ReadDir. -/
theorem buildList_reads_expand (cfg : BuildCfg) : ∀ es rp ln d,
    d ∈ (buildList cfg rp ln es).reads → shouldExpand cfg d = true := by
  intro es
  induction es using fs_ind with
  | h1 =>
    intro rp ln d h
    simp [buildList] at h
  | h2 n rest ih =>
    intro rp ln d h
    by_cases hskip : skipEntry cfg (rp ++ [n]) n
    · simp only [buildList, if_pos hskip] at h
      exact ih rp ln d h
    · simp only [buildList, if_neg hskip] at h
      exact ih rp (ln + 1) d h
  | h3 n r cs rest ihc ih =>
    intro rp ln d h
    by_cases hskip : skipEntry cfg (rp ++ [n]) n
    · simp only [buildList, if_pos hskip] at h
      exact ih rp ln d h
    · by_cases hexp : shouldExpand cfg (rp ++ [n])
      · simp only [buildList, if_neg hskip, if_pos hexp] at h
        rcases List.mem_cons.mp h with heq | hmem
        · rw [heq]
          exact hexp
        · rcases List.mem_append.mp hmem with hsub | hrest
          · by_cases hrd : r = true
            · rw [if_pos hrd] at hsub
              exact ihc (rp ++ [n]) (ln + 1) d hsub
            · rw [if_neg hrd] at hsub
              cases hsub
          · exact ih rp _ d hrest
      · simp only [buildList, if_neg hskip, if_neg hexp] at h
        exact ih rp (ln + 1) d h

theorem filesFrom_path_mem : ∀ (E : List (Bool × List String)) (ln k : Nat)
    (p : List String), (k, p) ∈ filesFrom ln E → (false, p) ∈ E := by
  intro E
  induction E with
  | nil => intro ln k p h; cases h
  | cons e rest ih =>
    intro ln k p h
    obtain ⟨isDir, q⟩ := e
    by_cases hd : isDir
    · rw [filesFrom, if_pos hd] at h
      exact List.mem_cons_of_mem _ (ih (ln + 1) k p h)
    · rw [filesFrom, if_neg hd] at h
      rcases List.mem_cons.mp h with heq | hmem
      · simp at heq
        simp [heq.2, Bool.eq_false_iff.mpr hd]
      · exact List.mem_cons_of_mem _ (ih (ln + 1) k p hmem)

theorem dirsFrom_mem_of_entry : ∀ (E : List (Bool × List String)) (ln : Nat)
    (p : List String), (true, p) ∈ E → ∃ k, (k, p) ∈ dirsFrom ln E := by
  intro E
  induction E with
  | nil => intro ln p h; cases h
  | cons e rest ih =>
    intro ln p h
    obtain ⟨isDir, q⟩ := e
    rcases List.mem_cons.mp h with heq | hmem
    · simp at heq
      obtain ⟨h1, h2⟩ := heq
      subst h1
      subst h2
      refine ⟨ln, ?_⟩
      rw [dirsFrom, if_pos rfl]
      exact List.mem_cons_self _ _
    · obtain ⟨k, hk⟩ := ih (ln + 1) p hmem
      by_cases hd : isDir
      · exact ⟨k, by rw [dirsFrom, if_pos hd]; exact List.mem_cons_of_mem _ hk⟩
      · exact ⟨k, by rw [dirsFrom, if_neg hd]; exact hk⟩

/-- C3: a directory rendered while global nesting is off and not in the
expansion state is never passed to a directory-read call, and contributes
exactly one collapsed line: one occurrence of its path, present in the
directory index, absent from the file index, with no rendered entry below
it. -/
theorem collapsed_dir_not_traversed (cfg : BuildCfg) (fs : List FSEntry)
    (d : List String) (hn : cfg.nestingEnabled = false) (hwf : wfList fs)
    (hnex : cfg.expandedDirs.contains d = false)
    (hmem : (true, d) ∈ entriesOf cfg [] fs) :
    d ∉ (buildTreeWithMaps cfg fs).reads
  ∧ (∃ k, (k, d) ∈ (buildTreeWithMaps cfg fs).dirMap)
  ∧ (∀ k, (k, d) ∉ (buildTreeWithMaps cfg fs).fileMap)
  ∧ @List.count (List String) instBEqOfDecidableEq d
      ((entriesOf cfg [] fs).map (fun e => e.2)) = 1
  ∧ (∀ e ∈ entriesOf cfg [] fs, e.2 ≠ d → ¬ (d <+: e.2)) := by
  have hse : shouldExpand cfg d = false := by
    have hnex2 : d ∉ cfg.expandedDirs := by simpa using hnex
    simp [shouldExpand, hn, hnex2]
  have hnd := entriesOf_paths_nodup cfg fs [] hwf
  obtain ⟨hbf, hbd, _, _, _, _⟩ := positionIndex_preorder cfg fs
  refine ⟨?_, ?_, ?_, ?_, ?_⟩
  · intro hr
    have hreads : (buildTreeWithMaps cfg fs).reads
        = [] :: (buildList cfg [] 1 fs).reads := by
      simp [buildTreeWithMaps]
    rw [hreads] at hr
    rcases List.mem_cons.mp hr with heq | hmemr
    · obtain ⟨n, t, _, hsh⟩ := entriesOf_shape cfg fs [] (true, d) hmem
      have hd2 : d = n :: t := by simpa using hsh
      rw [heq] at hd2
      cases hd2
    · have := buildList_reads_expand cfg fs [] 1 d hmemr
      rw [hse] at this
      cases this
  · obtain ⟨k, hk⟩ := dirsFrom_mem_of_entry (entriesOf cfg [] fs) 1 d hmem
    exact ⟨k, by rw [hbd]; exact hk⟩
  · intro k hk
    rw [hbf] at hk
    have hfmem : (false, d) ∈ entriesOf cfg [] fs :=
      filesFrom_path_mem (entriesOf cfg [] fs) 1 k d hk
    have heq := List.inj_on_of_nodup_map hnd hmem hfmem rfl
    cases heq
  · exact List.count_eq_one_of_mem hnd (List.mem_map_of_mem (fun e => e.2) hmem)
  · exact entriesOf_no_extend cfg fs [] hwf d hmem hse

/-- Witness for C3: in a listing with a collapsed directory sub next to a
file, sub is never read and sits in the directory index. -/
theorem collapsed_dir_not_traversed_witness :
    ["sub"] ∉ (buildTreeWithMaps ⟨fun _ => false, true, false, [], false⟩
        [FSEntry.dir "sub" true [FSEntry.file "d.go"], FSEntry.file "a.go"]).reads
  ∧ (∃ k, (k, ["sub"]) ∈ (buildTreeWithMaps ⟨fun _ => false, true, false, [], false⟩
        [FSEntry.dir "sub" true [FSEntry.file "d.go"], FSEntry.file "a.go"]).dirMap) := by
  have h := collapsed_dir_not_traversed ⟨fun _ => false, true, false, [], false⟩
    [FSEntry.dir "sub" true [FSEntry.file "d.go"], FSEntry.file "a.go"] ["sub"]
    rfl
    (by refine ⟨by decide, ?_⟩; simp [wfAux])
    (by decide)
    (by simp [entriesOf, skipEntry, shouldExpand, goHasPre])
  exact ⟨h.1, h.2.1⟩

/-! ## Theorems: selection-preserving coordinator (C1, C2, C8) -/

theorem lookupAt_filesFrom : ∀ (E : List (Bool × List String)) (ln k : Nat)
    (p : List String), (k, p) ∈ filesFrom ln E →
    lookupAt (filesFrom ln E) (k : Int) = some p := by
  intro E
  induction E with
  | nil => intro ln k p h; cases h
  | cons e rest ih =>
    intro ln k p h
    obtain ⟨isDir, q⟩ := e
    by_cases hd : isDir
    · rw [filesFrom, if_pos hd] at h ⊢
      exact ih (ln + 1) k p h
    · rw [filesFrom, if_neg hd] at h ⊢
      rcases List.mem_cons.mp h with heq | hmem
      · simp at heq
        obtain ⟨h1, h2⟩ := heq
        subst h1
        subst h2
        unfold lookupAt
        rw [List.find?_cons]
        simp
      · have hk : ln + 1 ≤ k := filesFrom_key_lb rest (ln + 1) k p hmem
        have hne : (((ln : Nat) : Int) == (k : Int)) = false := by
          simp
          omega
        unfold lookupAt
        rw [List.find?_cons, hne]
        exact ih (ln + 1) k p hmem

theorem lookupAt_dirsFrom : ∀ (E : List (Bool × List String)) (ln k : Nat)
    (p : List String), (k, p) ∈ dirsFrom ln E →
    lookupAt (dirsFrom ln E) (k : Int) = some p := by
  intro E
  induction E with
  | nil => intro ln k p h; cases h
  | cons e rest ih =>
    intro ln k p h
    obtain ⟨isDir, q⟩ := e
    by_cases hd : isDir
    · rw [dirsFrom, if_pos hd] at h ⊢
      rcases List.mem_cons.mp h with heq | hmem
      · simp at heq
        obtain ⟨h1, h2⟩ := heq
        subst h1
        subst h2
        unfold lookupAt
        rw [List.find?_cons]
        simp
      · have hk : ln + 1 ≤ k := dirsFrom_key_lb rest (ln + 1) k p hmem
        have hne : (((ln : Nat) : Int) == (k : Int)) = false := by
          simp
          omega
        unfold lookupAt
        rw [List.find?_cons, hne]
        exact ih (ln + 1) k p hmem
    · rw [dirsFrom, if_neg hd] at h ⊢
      exact ih (ln + 1) k p h

theorem dirsFrom_path_mem : ∀ (E : List (Bool × List String)) (ln k : Nat)
    (p : List String), (k, p) ∈ dirsFrom ln E → (true, p) ∈ E := by
  intro E
  induction E with
  | nil => intro ln k p h; cases h
  | cons e rest ih =>
    intro ln k p h
    obtain ⟨isDir, q⟩ := e
    by_cases hd : isDir
    · rw [dirsFrom, if_pos hd] at h
      rcases List.mem_cons.mp h with heq | hmem
      · simp at heq
        simp [heq.2, hd]
      · exact List.mem_cons_of_mem _ (ih (ln + 1) k p hmem)
    · rw [dirsFrom, if_neg hd] at h
      exact List.mem_cons_of_mem _ (ih (ln + 1) k p h)

theorem findLineOf_mem : ∀ (mp : List (Nat × List String)) (p : List String),
    p ∈ mp.map (fun e => e.2) →
    ∃ k, findLineOf mp p = some k ∧ (k, p) ∈ mp := by
  intro mp
  induction mp with
  | nil => intro p h; simp at h
  | cons e rest ih =>
    intro p h
    obtain ⟨k0, q⟩ := e
    by_cases hq : q = p
    · refine ⟨k0, ?_, ?_⟩
      · unfold findLineOf
        rw [List.find?_cons]
        simp [hq]
      · rw [hq]
        exact List.mem_cons_self _ _
    · have h2 : p ∈ rest.map (fun e => e.2) := by
        simp at h
        rcases h with h | h
        · exact absurd h.symm hq
        · simpa using h
      obtain ⟨k, hk1, hk2⟩ := ih p h2
      refine ⟨k, ?_, List.mem_cons_of_mem _ hk2⟩
      unfold findLineOf
      rw [List.find?_cons]
      have : ((q == p : Bool)) = false := by simp [hq]
      rw [this]
      exact hk1

theorem findLineOf_not_mem : ∀ (mp : List (Nat × List String)) (p : List String),
    p ∉ mp.map (fun e => e.2) → findLineOf mp p = none := by
  intro mp
  induction mp with
  | nil => intro p _; rfl
  | cons e rest ih =>
    intro p h
    obtain ⟨k0, q⟩ := e
    simp at h
    push_neg at h
    unfold findLineOf
    rw [List.find?_cons]
    have : ((q == p : Bool)) = false := by simp; exact fun hb => h.1 hb.symm
    rw [this]
    exact ih p (by simpa using h.2)

theorem clampSel_id (sel maxLine : Int) (h0 : 0 ≤ sel) (h1 : sel ≤ maxLine) :
    clampSel sel maxLine = sel := by
  have h2 : ¬ (sel > maxLine) := by omega
  have h3 : ¬ (sel < 0) := by omega
  simp [clampSel, h2, h3]

/-- maxLine after a rebuild is the number of rendered entries (the rendered
text is the root label plus one line per entry). -/
theorem newMaxLine_eq (cfg : BuildCfg) (fs : List FSEntry) :
    newMaxLine (buildTreeWithMaps cfg fs) = ((entriesOf cfg [] fs).length : Int) := by
  obtain ⟨_, _, _, _, _, hbn⟩ := positionIndex_preorder cfg fs
  have h1 : (((buildTreeWithMaps cfg fs).nextLine : Nat) : Int)
      = 1 + ((entriesOf cfg [] fs).length : Int) := by
    rw [hbn]
    push_cast
    ring
  unfold newMaxLine
  rw [h1, if_neg (by omega)]
  ring

/-- A file-index entry of a build can be looked up at its line, and its line
lies in [1, maxLine]. -/
theorem fileMap_entry_resolves (cfg : BuildCfg) (fs : List FSEntry) (k : Nat)
    (p : List String) (h : (k, p) ∈ (buildTreeWithMaps cfg fs).fileMap) :
    lookupAt (buildTreeWithMaps cfg fs).fileMap (k : Int) = some p
    ∧ 1 ≤ k ∧ (k : Int) ≤ newMaxLine (buildTreeWithMaps cfg fs) := by
  obtain ⟨hbf, _, _, _, _, _⟩ := positionIndex_preorder cfg fs
  rw [hbf] at h ⊢
  refine ⟨lookupAt_filesFrom _ 1 k p h, filesFrom_key_lb _ 1 k p h, ?_⟩
  have hub := filesFrom_key_ub _ 1 k p h
  rw [newMaxLine_eq]
  obtain ⟨hbf2, _, _, _, _, _⟩ := positionIndex_preorder cfg fs
  omega

theorem dirMap_entry_resolves (cfg : BuildCfg) (fs : List FSEntry) (k : Nat)
    (p : List String) (h : (k, p) ∈ (buildTreeWithMaps cfg fs).dirMap) :
    lookupAt (buildTreeWithMaps cfg fs).dirMap (k : Int) = some p
    ∧ 1 ≤ k ∧ (k : Int) ≤ newMaxLine (buildTreeWithMaps cfg fs) := by
  obtain ⟨_, hbd, _, _, _, _⟩ := positionIndex_preorder cfg fs
  rw [hbd] at h ⊢
  refine ⟨lookupAt_dirsFrom _ 1 k p h, dirsFrom_key_lb _ 1 k p h, ?_⟩
  have hub := dirsFrom_key_ub _ 1 k p h
  rw [newMaxLine_eq]
  omega

/-- Under well-formedness, no path is in both indexes of one build. -/
theorem buildMaps_paths_disjoint (cfg : BuildCfg) (fs : List FSEntry)
    (hwf : wfList fs) (p : List String)
    (hf : p ∈ (buildTreeWithMaps cfg fs).fileMap.map (fun e => e.2))
    (hd : p ∈ (buildTreeWithMaps cfg fs).dirMap.map (fun e => e.2)) : False := by
  obtain ⟨hbf, hbd, _, _, _, _⟩ := positionIndex_preorder cfg fs
  rw [hbf] at hf
  rw [hbd] at hd
  obtain ⟨ef, hef, heqf⟩ := List.mem_map.mp hf
  obtain ⟨ed, hed, heqd⟩ := List.mem_map.mp hd
  have hfm : (false, p) ∈ entriesOf cfg [] fs := by
    have := filesFrom_path_mem _ 1 ef.1 ef.2 (by simpa using hef)
    rw [heqf] at this
    exact this
  have hdm : (true, p) ∈ entriesOf cfg [] fs := by
    have := dirsFrom_path_mem _ 1 ed.1 ed.2 (by simpa using hed)
    rw [heqd] at this
    exact this
  have hnd := entriesOf_paths_nodup cfg fs [] hwf
  have heq := List.inj_on_of_nodup_map hnd hdm hfm rfl
  cases heq

/-- C2 (failing input for the code bug): the creation confirm branch
(main.go 242-249) rebuilds the tree but, unlike every sibling rebuild branch,
never re-clamps selectedLine.  With the cursor at line 5 (valid against the
previous tree) and the rebuild listing a single file (external deletions since
the last rebuild), maxLine becomes 1 while the cursor stays at 5, violating
0 ≤ cursor ≤ maxLine; the deletion branch on the same input clamps to 1. -/
theorem createEnter_cursor_unclamped :
    (createEnter ⟨5, 6, [], [], true, false, false, []⟩ (fun _ => false)
        [FSEntry.file "x"] "x").selectedLine = 5
  ∧ (createEnter ⟨5, 6, [], [], true, false, false, []⟩ (fun _ => false)
        [FSEntry.file "x"] "x").maxLine = 1
  ∧ ¬ ((createEnter ⟨5, 6, [], [], true, false, false, []⟩ (fun _ => false)
        [FSEntry.file "x"] "x").selectedLine
      ≤ (createEnter ⟨5, 6, [], [], true, false, false, []⟩ (fun _ => false)
        [FSEntry.file "x"] "x").maxLine)
  ∧ (deleteConfirm ⟨5, 6, [], [], true, false, false, []⟩ (fun _ => false)
        [FSEntry.file "x"]).selectedLine = 1 := by
  refine ⟨?_, ?_, ?_, ?_⟩ <;>
    simp [createEnter, deleteConfirm, buildTreeWithMaps, buildList, skipEntry,
      newMaxLine, clampSel, goHasPre, cfgOf]

/-- C8: toggling global nesting from off to on clears the manual expansion set
entirely; from on to off it leaves the set unchanged; and no other trigger
clears it wholesale — every other branch leaves the set untouched, and the
expand/collapse branches only insert, or remove, the selected directory. -/
theorem expansionState_lifecycle (m : TuiModel) (ign : List String → Bool)
    (fs : List FSEntry) (name : String) :
    (m.nestingEnabled = false →
      (keyN m ign fs).nestingEnabled = true ∧ (keyN m ign fs).expandedDirs = [])
  ∧ (m.nestingEnabled = true →
      (keyN m ign fs).nestingEnabled = false
      ∧ (keyN m ign fs).expandedDirs = m.expandedDirs)
  ∧ (tickUpdate m ign fs).expandedDirs = m.expandedDirs
  ∧ (keyR m ign fs).expandedDirs = m.expandedDirs
  ∧ (keyI m ign fs).expandedDirs = m.expandedDirs
  ∧ (keyU m ign fs).expandedDirs = m.expandedDirs
  ∧ (createEnter m ign fs name).expandedDirs = m.expandedDirs
  ∧ (deleteConfirm m ign fs).expandedDirs = m.expandedDirs
  ∧ (moveDown m).expandedDirs = m.expandedDirs
  ∧ (moveUp m).expandedDirs = m.expandedDirs
  ∧ (∀ x ∈ m.expandedDirs,
      x ∈ (keyH m ign fs).expandedDirs ∨ lookupAt m.dirMap m.selectedLine = some x)
  ∧ (∀ x ∈ m.expandedDirs, x ∈ (keyL m ign fs).expandedDirs) := by
  refine ⟨?_, ?_, rfl, rfl, rfl, rfl, ?_, rfl, ?_, ?_, ?_, ?_⟩
  · intro hn
    simp [keyN, hn]
  · intro hn
    simp [keyN, hn]
  · by_cases hname : name = "" <;> simp [createEnter, hname]
  · by_cases h : m.selectedLine < m.maxLine <;> simp [moveDown, h]
  · by_cases h : m.selectedLine > 0 <;> simp [moveUp, h]
  · intro x hx
    by_cases hn : m.nestingEnabled
    · left
      simp [keyH, hn]
      exact hx
    · cases hl : lookupAt m.dirMap m.selectedLine with
      | none =>
        left
        simp [keyH, hn, hl]
        exact hx
      | some dirPath =>
        by_cases hxd : x = dirPath
        · right
          rw [hxd]
        · left
          have hexp : (keyH m ign fs).expandedDirs
              = m.expandedDirs.filter (fun d => !(d == dirPath)) := by
            simp [keyH, hn, hl]
          rw [hexp]
          exact List.mem_filter.mpr ⟨hx, by simp [hxd]⟩
  · intro x hx
    by_cases hn : m.nestingEnabled
    · simp [keyL, hn]
      exact hx
    · cases hl : lookupAt m.dirMap m.selectedLine with
      | none =>
        simp [keyL, hn, hl]
        exact hx
      | some dirPath =>
        by_cases hc : dirPath ∈ m.expandedDirs
        · simp [keyL, hn, hl, hc]
          exact hx
        · simp [keyL, hn, hl, hc]
          exact Or.inr hx

/-- Witness for C8: a state with nesting off and one expanded directory; the
nesting toggle empties the set; the tick rebuild leaves it untouched. -/
theorem expansionState_lifecycle_witness :
    (keyN ⟨0, 0, [], [], true, false, false, [["x"]]⟩ (fun _ => false) []).expandedDirs = []
  ∧ (tickUpdate ⟨0, 0, [], [], true, false, false, [["x"]]⟩ (fun _ => false)
      []).expandedDirs = [["x"]] :=
  ⟨((expansionState_lifecycle ⟨0, 0, [], [], true, false, false, [["x"]]⟩
      (fun _ => false) [] "f").1 rfl).2,
   (expansionState_lifecycle ⟨0, 0, [], [], true, false, false, [["x"]]⟩
      (fun _ => false) [] "f").2.2.1⟩

/-- C1 (counterexample): the tick rebuild records the old selection only
through the file index (main.go 793-796), so a selected directory that is
still present after the rebuild is not relocated: with the cursor on the
directory sub (old line 2) and a rebuild in which a new file b shifts sub to
line 3, the cursor stays at line 2, which now resolves to the file b, not to
sub — the claim requires it to resolve to sub via the dirAt fallback. -/
theorem tick_directory_selection_lost :
    lookupAt (⟨2, 2, [(1, ["a"])], [(2, ["sub"])], true, false, false, []⟩
      : TuiModel).dirMap 2 = some ["sub"]
  ∧ findLineOf (tickUpdate ⟨2, 2, [(1, ["a"])], [(2, ["sub"])], true, false, false, []⟩
      (fun _ => false)
      [FSEntry.file "a", FSEntry.file "b", FSEntry.dir "sub" true []]).dirMap ["sub"]
      = some 3
  ∧ (tickUpdate ⟨2, 2, [(1, ["a"])], [(2, ["sub"])], true, false, false, []⟩
      (fun _ => false)
      [FSEntry.file "a", FSEntry.file "b", FSEntry.dir "sub" true []]).selectedLine = 2
  ∧ lookupAt (tickUpdate ⟨2, 2, [(1, ["a"])], [(2, ["sub"])], true, false, false, []⟩
      (fun _ => false)
      [FSEntry.file "a", FSEntry.file "b", FSEntry.dir "sub" true []]).fileMap
      ((tickUpdate ⟨2, 2, [(1, ["a"])], [(2, ["sub"])], true, false, false, []⟩
        (fun _ => false)
        [FSEntry.file "a", FSEntry.file "b", FSEntry.dir "sub" true []]).selectedLine)
      = some ["b"]
  ∧ lookupAt (tickUpdate ⟨2, 2, [(1, ["a"])], [(2, ["sub"])], true, false, false, []⟩
      (fun _ => false)
      [FSEntry.file "a", FSEntry.file "b", FSEntry.dir "sub" true []]).dirMap
      ((tickUpdate ⟨2, 2, [(1, ["a"])], [(2, ["sub"])], true, false, false, []⟩
        (fun _ => false)
        [FSEntry.file "a", FSEntry.file "b", FSEntry.dir "sub" true []]).selectedLine)
      = none := by
  refine ⟨?_, ?_, ?_, ?_, ?_⟩ <;>
    simp [tickUpdate, lookupAt, findLineOf, buildTreeWithMaps, buildList, skipEntry,
      goHasPre, cfgOf, newMaxLine, clampSel, List.find?, shouldExpand]

/-- C1 (amended): after a full-refresh or expand/collapse rebuild whose
recorded selection (file index first, else directory index) is still present
in the new tree, the cursor resolves to a line whose new-index entry equals
the recorded path, the file index searched first and the directory index only
as fallback; after a tick or visibility-toggle (gitignore, hidden, nesting)
rebuild (the nesting toggle in either direction) the same holds when the
recorded path is a file still present in the new file index — those branches
record and search only the file index, so directory selections are not
preserved there (see the counterexample). -/
theorem selection_relocation_amended (m : TuiModel) (ign : List String → Bool)
    (fs : List FSEntry) (p : List String) (hwf : wfList fs) :
    (recordSelection m = some p →
      (p ∈ (buildTreeWithMaps (cfgOf m ign) fs).fileMap.map (fun e => e.2) →
        lookupAt (keyR m ign fs).fileMap (keyR m ign fs).selectedLine = some p)
      ∧ (p ∉ (buildTreeWithMaps (cfgOf m ign) fs).fileMap.map (fun e => e.2) →
          p ∈ (buildTreeWithMaps (cfgOf m ign) fs).dirMap.map (fun e => e.2) →
          lookupAt (keyR m ign fs).dirMap (keyR m ign fs).selectedLine = some p))
  ∧ (lookupAt m.fileMap m.selectedLine = some p →
      p ∈ (buildTreeWithMaps (cfgOf m ign) fs).fileMap.map (fun e => e.2) →
      lookupAt (tickUpdate m ign fs).fileMap (tickUpdate m ign fs).selectedLine
        = some p)
  ∧ (lookupAt m.fileMap m.selectedLine = some p →
      p ∈ (buildTreeWithMaps (cfgOf { m with respectIgnore := !m.respectIgnore } ign)
        fs).fileMap.map (fun e => e.2) →
      lookupAt (keyI m ign fs).fileMap (keyI m ign fs).selectedLine = some p)
  ∧ (lookupAt m.fileMap m.selectedLine = some p →
      p ∈ (buildTreeWithMaps (cfgOf { m with showHidden := !m.showHidden } ign)
        fs).fileMap.map (fun e => e.2) →
      lookupAt (keyU m ign fs).fileMap (keyU m ign fs).selectedLine = some p)
  ∧ (m.nestingEnabled = false →
      lookupAt m.fileMap m.selectedLine = some p →
      p ∈ (buildTreeWithMaps
        (cfgOf { m with nestingEnabled := true, expandedDirs := [] } ign)
        fs).fileMap.map (fun e => e.2) →
      lookupAt (keyN m ign fs).fileMap (keyN m ign fs).selectedLine = some p)
  ∧ (m.nestingEnabled = true →
      lookupAt m.fileMap m.selectedLine = some p →
      p ∈ (buildTreeWithMaps
        (cfgOf { m with nestingEnabled := false } ign)
        fs).fileMap.map (fun e => e.2) →
      lookupAt (keyN m ign fs).fileMap (keyN m ign fs).selectedLine = some p)
  ∧ (∀ dirPath, m.nestingEnabled = false →
      lookupAt m.dirMap m.selectedLine = some dirPath →
      recordSelection { m with expandedDirs := m.expandedDirs.filter (fun d => !(d == dirPath)) } = some p →
      (p ∈ (buildTreeWithMaps (cfgOf { m with expandedDirs := m.expandedDirs.filter (fun d => !(d == dirPath)) } ign)
          fs).fileMap.map (fun e => e.2) →
        lookupAt (keyH m ign fs).fileMap (keyH m ign fs).selectedLine = some p)
      ∧ (p ∉ (buildTreeWithMaps (cfgOf { m with expandedDirs := m.expandedDirs.filter (fun d => !(d == dirPath)) } ign)
          fs).fileMap.map (fun e => e.2) →
        p ∈ (buildTreeWithMaps (cfgOf { m with expandedDirs := m.expandedDirs.filter (fun d => !(d == dirPath)) } ign)
          fs).dirMap.map (fun e => e.2) →
        lookupAt (keyH m ign fs).dirMap (keyH m ign fs).selectedLine = some p))
  ∧ (∀ dirPath, m.nestingEnabled = false →
      lookupAt m.dirMap m.selectedLine = some dirPath →
      recordSelection { m with expandedDirs := if m.expandedDirs.contains dirPath then m.expandedDirs else dirPath :: m.expandedDirs } = some p →
      (p ∈ (buildTreeWithMaps (cfgOf { m with expandedDirs := if m.expandedDirs.contains dirPath then m.expandedDirs else dirPath :: m.expandedDirs } ign)
          fs).fileMap.map (fun e => e.2) →
        lookupAt (keyL m ign fs).fileMap (keyL m ign fs).selectedLine = some p)
      ∧ (p ∉ (buildTreeWithMaps (cfgOf { m with expandedDirs := if m.expandedDirs.contains dirPath then m.expandedDirs else dirPath :: m.expandedDirs } ign)
          fs).fileMap.map (fun e => e.2) →
        p ∈ (buildTreeWithMaps (cfgOf { m with expandedDirs := if m.expandedDirs.contains dirPath then m.expandedDirs else dirPath :: m.expandedDirs } ign)
          fs).dirMap.map (fun e => e.2) →
        lookupAt (keyL m ign fs).dirMap (keyL m ign fs).selectedLine = some p)) := by
  refine ⟨?_, ?_, ?_, ?_, ?_, ?_, ?_, ?_⟩
  · intro hrec
    constructor
    · intro hpres
      obtain ⟨l, hfind, hlmem⟩ :=
        findLineOf_mem (buildTreeWithMaps (cfgOf m ign) fs).fileMap p hpres
      obtain ⟨hlook, hlb, hub⟩ := fileMap_entry_resolves (cfgOf m ign) fs l p hlmem
      have hne0 : (((l : Nat) : Int) == (0 : Int)) = false := by
        simp
        omega
      have hR : keyR m ign fs = { m with
          selectedLine := clampSel ((l : Nat) : Int)
            (newMaxLine (buildTreeWithMaps (cfgOf m ign) fs)),
          maxLine := newMaxLine (buildTreeWithMaps (cfgOf m ign) fs),
          fileMap := (buildTreeWithMaps (cfgOf m ign) fs).fileMap,
          dirMap := (buildTreeWithMaps (cfgOf m ign) fs).dirMap } := by
        simp only [keyR]
        rw [hrec]
        simp [hfind, hne0]
      rw [hR]
      show lookupAt (buildTreeWithMaps (cfgOf m ign) fs).fileMap
        (clampSel ((l : Nat) : Int)
          (newMaxLine (buildTreeWithMaps (cfgOf m ign) fs))) = some p
      rw [clampSel_id _ _ (Int.natCast_nonneg l) hub]
      exact hlook
    · intro hnotf hpres
      have hfnone : findLineOf (buildTreeWithMaps (cfgOf m ign) fs).fileMap p = none :=
        findLineOf_not_mem _ p hnotf
      obtain ⟨l, hfind, hlmem⟩ :=
        findLineOf_mem (buildTreeWithMaps (cfgOf m ign) fs).dirMap p hpres
      obtain ⟨hlook, hlb, hub⟩ := dirMap_entry_resolves (cfgOf m ign) fs l p hlmem
      have hR : keyR m ign fs = { m with
          selectedLine := clampSel ((l : Nat) : Int)
            (newMaxLine (buildTreeWithMaps (cfgOf m ign) fs)),
          maxLine := newMaxLine (buildTreeWithMaps (cfgOf m ign) fs),
          fileMap := (buildTreeWithMaps (cfgOf m ign) fs).fileMap,
          dirMap := (buildTreeWithMaps (cfgOf m ign) fs).dirMap } := by
        simp only [keyR]
        rw [hrec]
        simp [hfnone, hfind]
      rw [hR]
      show lookupAt (buildTreeWithMaps (cfgOf m ign) fs).dirMap
        (clampSel ((l : Nat) : Int)
          (newMaxLine (buildTreeWithMaps (cfgOf m ign) fs))) = some p
      rw [clampSel_id _ _ (Int.natCast_nonneg l) hub]
      exact hlook
  · intro hrec hpres
    obtain ⟨l, hfind, hlmem⟩ :=
      findLineOf_mem (buildTreeWithMaps (cfgOf m ign) fs).fileMap p hpres
    obtain ⟨hlook, hlb, hub⟩ := fileMap_entry_resolves (cfgOf m ign) fs l p hlmem
    have hT : tickUpdate m ign fs = { m with
        selectedLine := clampSel ((l : Nat) : Int)
          (newMaxLine (buildTreeWithMaps (cfgOf m ign) fs)),
        maxLine := newMaxLine (buildTreeWithMaps (cfgOf m ign) fs),
        fileMap := (buildTreeWithMaps (cfgOf m ign) fs).fileMap,
        dirMap := (buildTreeWithMaps (cfgOf m ign) fs).dirMap } := by
      simp only [tickUpdate]
      rw [hrec]
      simp [hfind]
    rw [hT]
    show lookupAt (buildTreeWithMaps (cfgOf m ign) fs).fileMap
      (clampSel ((l : Nat) : Int)
        (newMaxLine (buildTreeWithMaps (cfgOf m ign) fs))) = some p
    rw [clampSel_id _ _ (Int.natCast_nonneg l) hub]
    exact hlook
  · intro hrec hpres
    obtain ⟨l, hfind, hlmem⟩ := findLineOf_mem
      (buildTreeWithMaps (cfgOf { m with respectIgnore := !m.respectIgnore } ign)
        fs).fileMap p hpres
    obtain ⟨hlook, hlb, hub⟩ := fileMap_entry_resolves
      (cfgOf { m with respectIgnore := !m.respectIgnore } ign) fs l p hlmem
    have hI : keyI m ign fs = { m with
        respectIgnore := !m.respectIgnore,
        selectedLine := clampSel ((l : Nat) : Int)
          (newMaxLine (buildTreeWithMaps
            (cfgOf { m with respectIgnore := !m.respectIgnore } ign) fs)),
        maxLine := newMaxLine (buildTreeWithMaps
          (cfgOf { m with respectIgnore := !m.respectIgnore } ign) fs),
        fileMap := (buildTreeWithMaps
          (cfgOf { m with respectIgnore := !m.respectIgnore } ign) fs).fileMap,
        dirMap := (buildTreeWithMaps
          (cfgOf { m with respectIgnore := !m.respectIgnore } ign) fs).dirMap } := by
      simp only [keyI]
      rw [hrec]
      simp [hfind]
    rw [hI]
    show lookupAt (buildTreeWithMaps
        (cfgOf { m with respectIgnore := !m.respectIgnore } ign) fs).fileMap
      (clampSel ((l : Nat) : Int)
        (newMaxLine (buildTreeWithMaps
          (cfgOf { m with respectIgnore := !m.respectIgnore } ign) fs))) = some p
    rw [clampSel_id _ _ (Int.natCast_nonneg l) hub]
    exact hlook
  · intro hrec hpres
    obtain ⟨l, hfind, hlmem⟩ := findLineOf_mem
      (buildTreeWithMaps (cfgOf { m with showHidden := !m.showHidden } ign)
        fs).fileMap p hpres
    obtain ⟨hlook, hlb, hub⟩ := fileMap_entry_resolves
      (cfgOf { m with showHidden := !m.showHidden } ign) fs l p hlmem
    have hU : keyU m ign fs = { m with
        showHidden := !m.showHidden,
        selectedLine := clampSel ((l : Nat) : Int)
          (newMaxLine (buildTreeWithMaps
            (cfgOf { m with showHidden := !m.showHidden } ign) fs)),
        maxLine := newMaxLine (buildTreeWithMaps
          (cfgOf { m with showHidden := !m.showHidden } ign) fs),
        fileMap := (buildTreeWithMaps
          (cfgOf { m with showHidden := !m.showHidden } ign) fs).fileMap,
        dirMap := (buildTreeWithMaps
          (cfgOf { m with showHidden := !m.showHidden } ign) fs).dirMap } := by
      simp only [keyU]
      rw [hrec]
      simp [hfind]
    rw [hU]
    show lookupAt (buildTreeWithMaps
        (cfgOf { m with showHidden := !m.showHidden } ign) fs).fileMap
      (clampSel ((l : Nat) : Int)
        (newMaxLine (buildTreeWithMaps
          (cfgOf { m with showHidden := !m.showHidden } ign) fs))) = some p
    rw [clampSel_id _ _ (Int.natCast_nonneg l) hub]
    exact hlook
  · intro hn hrec hpres
    obtain ⟨l, hfind, hlmem⟩ := findLineOf_mem
      (buildTreeWithMaps
        (cfgOf { m with nestingEnabled := true, expandedDirs := [] } ign)
        fs).fileMap p hpres
    obtain ⟨hlook, hlb, hub⟩ := fileMap_entry_resolves
      (cfgOf { m with nestingEnabled := true, expandedDirs := [] } ign) fs l p hlmem
    have hN : keyN m ign fs = { m with
        nestingEnabled := true,
        expandedDirs := [],
        selectedLine := clampSel ((l : Nat) : Int)
          (newMaxLine (buildTreeWithMaps
            (cfgOf { m with nestingEnabled := true, expandedDirs := [] } ign) fs)),
        maxLine := newMaxLine (buildTreeWithMaps
          (cfgOf { m with nestingEnabled := true, expandedDirs := [] } ign) fs),
        fileMap := (buildTreeWithMaps
          (cfgOf { m with nestingEnabled := true, expandedDirs := [] } ign) fs).fileMap,
        dirMap := (buildTreeWithMaps
          (cfgOf { m with nestingEnabled := true, expandedDirs := [] } ign) fs).dirMap } := by
      simp only [keyN]
      simp [hn, hrec, hfind]
    rw [hN]
    show lookupAt (buildTreeWithMaps
        (cfgOf { m with nestingEnabled := true, expandedDirs := [] } ign) fs).fileMap
      (clampSel ((l : Nat) : Int)
        (newMaxLine (buildTreeWithMaps
          (cfgOf { m with nestingEnabled := true, expandedDirs := [] } ign) fs)))
      = some p
    rw [clampSel_id _ _ (Int.natCast_nonneg l) hub]
    exact hlook
  · intro hn hrec hpres
    obtain ⟨l, hfind, hlmem⟩ := findLineOf_mem
      (buildTreeWithMaps
        (cfgOf { m with nestingEnabled := false } ign)
        fs).fileMap p hpres
    obtain ⟨hlook, hlb, hub⟩ := fileMap_entry_resolves
      (cfgOf { m with nestingEnabled := false } ign) fs l p hlmem
    have hN : keyN m ign fs = { m with
        nestingEnabled := false,
        selectedLine := clampSel ((l : Nat) : Int)
          (newMaxLine (buildTreeWithMaps
            (cfgOf { m with nestingEnabled := false } ign) fs)),
        maxLine := newMaxLine (buildTreeWithMaps
          (cfgOf { m with nestingEnabled := false } ign) fs),
        fileMap := (buildTreeWithMaps
          (cfgOf { m with nestingEnabled := false } ign) fs).fileMap,
        dirMap := (buildTreeWithMaps
          (cfgOf { m with nestingEnabled := false } ign) fs).dirMap } := by
      simp only [keyN]
      simp [hn, hrec, hfind]
    rw [hN]
    show lookupAt (buildTreeWithMaps
        (cfgOf { m with nestingEnabled := false } ign) fs).fileMap
      (clampSel ((l : Nat) : Int)
        (newMaxLine (buildTreeWithMaps
          (cfgOf { m with nestingEnabled := false } ign) fs)))
      = some p
    rw [clampSel_id _ _ (Int.natCast_nonneg l) hub]
    exact hlook
  · intro dirPath hn hldir hrec
    constructor
    · intro hpres
      obtain ⟨l, hfind, hlmem⟩ := findLineOf_mem
        (buildTreeWithMaps (cfgOf { m with expandedDirs := m.expandedDirs.filter (fun d => !(d == dirPath)) } ign) fs).fileMap p hpres
      obtain ⟨hlook, hlb, hub⟩ := fileMap_entry_resolves
        (cfgOf { m with expandedDirs := m.expandedDirs.filter (fun d => !(d == dirPath)) } ign) fs l p hlmem
      have hnotd : p ∉ (buildTreeWithMaps (cfgOf { m with expandedDirs := m.expandedDirs.filter (fun d => !(d == dirPath)) } ign)
          fs).dirMap.map (fun e => e.2) := by
        intro hd
        exact buildMaps_paths_disjoint _ fs hwf p hpres hd
      have hdnone := findLineOf_not_mem _ p hnotd
      have hH : keyH m ign fs = { m with
          expandedDirs := m.expandedDirs.filter (fun d => !(d == dirPath)),
          selectedLine := clampSel ((l : Nat) : Int)
            (newMaxLine (buildTreeWithMaps (cfgOf { m with expandedDirs := m.expandedDirs.filter (fun d => !(d == dirPath)) } ign) fs)),
          maxLine := newMaxLine (buildTreeWithMaps (cfgOf { m with expandedDirs := m.expandedDirs.filter (fun d => !(d == dirPath)) } ign) fs),
          fileMap := (buildTreeWithMaps (cfgOf { m with expandedDirs := m.expandedDirs.filter (fun d => !(d == dirPath)) } ign) fs).fileMap,
          dirMap := (buildTreeWithMaps (cfgOf { m with expandedDirs := m.expandedDirs.filter (fun d => !(d == dirPath)) } ign) fs).dirMap } := by
        simp only [keyH]
        rw [if_neg (by simp [hn])]
        rw [hldir]
        simp [hrec, hfind, hdnone]
      rw [hH]
      show lookupAt (buildTreeWithMaps (cfgOf { m with expandedDirs := m.expandedDirs.filter (fun d => !(d == dirPath)) } ign) fs).fileMap
        (clampSel ((l : Nat) : Int)
          (newMaxLine (buildTreeWithMaps (cfgOf { m with expandedDirs := m.expandedDirs.filter (fun d => !(d == dirPath)) } ign) fs))) = some p
      rw [clampSel_id _ _ (Int.natCast_nonneg l) hub]
      exact hlook
    · intro hnotf hpres
      have hfnone := findLineOf_not_mem
        (buildTreeWithMaps (cfgOf { m with expandedDirs := m.expandedDirs.filter (fun d => !(d == dirPath)) } ign) fs).fileMap p hnotf
      obtain ⟨l, hfind, hlmem⟩ := findLineOf_mem
        (buildTreeWithMaps (cfgOf { m with expandedDirs := m.expandedDirs.filter (fun d => !(d == dirPath)) } ign) fs).dirMap p hpres
      obtain ⟨hlook, hlb, hub⟩ := dirMap_entry_resolves
        (cfgOf { m with expandedDirs := m.expandedDirs.filter (fun d => !(d == dirPath)) } ign) fs l p hlmem
      have hH : keyH m ign fs = { m with
          expandedDirs := m.expandedDirs.filter (fun d => !(d == dirPath)),
          selectedLine := clampSel ((l : Nat) : Int)
            (newMaxLine (buildTreeWithMaps (cfgOf { m with expandedDirs := m.expandedDirs.filter (fun d => !(d == dirPath)) } ign) fs)),
          maxLine := newMaxLine (buildTreeWithMaps (cfgOf { m with expandedDirs := m.expandedDirs.filter (fun d => !(d == dirPath)) } ign) fs),
          fileMap := (buildTreeWithMaps (cfgOf { m with expandedDirs := m.expandedDirs.filter (fun d => !(d == dirPath)) } ign) fs).fileMap,
          dirMap := (buildTreeWithMaps (cfgOf { m with expandedDirs := m.expandedDirs.filter (fun d => !(d == dirPath)) } ign) fs).dirMap } := by
        simp only [keyH]
        rw [if_neg (by simp [hn])]
        rw [hldir]
        simp [hrec, hfnone, hfind]
      rw [hH]
      show lookupAt (buildTreeWithMaps (cfgOf { m with expandedDirs := m.expandedDirs.filter (fun d => !(d == dirPath)) } ign) fs).dirMap
        (clampSel ((l : Nat) : Int)
          (newMaxLine (buildTreeWithMaps (cfgOf { m with expandedDirs := m.expandedDirs.filter (fun d => !(d == dirPath)) } ign) fs))) = some p
      rw [clampSel_id _ _ (Int.natCast_nonneg l) hub]
      exact hlook
  · intro dirPath hn hldir hrec
    constructor
    · intro hpres
      obtain ⟨l, hfind, hlmem⟩ := findLineOf_mem
        (buildTreeWithMaps (cfgOf { m with expandedDirs := if m.expandedDirs.contains dirPath then m.expandedDirs else dirPath :: m.expandedDirs } ign) fs).fileMap p hpres
      obtain ⟨hlook, hlb, hub⟩ := fileMap_entry_resolves
        (cfgOf { m with expandedDirs := if m.expandedDirs.contains dirPath then m.expandedDirs else dirPath :: m.expandedDirs } ign) fs l p hlmem
      have hnotd : p ∉ (buildTreeWithMaps (cfgOf { m with expandedDirs := if m.expandedDirs.contains dirPath then m.expandedDirs else dirPath :: m.expandedDirs } ign) fs).dirMap.map (fun e => e.2) := by
        intro hd
        exact buildMaps_paths_disjoint _ fs hwf p hpres hd
      have hdnone := findLineOf_not_mem _ p hnotd
      have hL : keyL m ign fs = { m with
          expandedDirs := if m.expandedDirs.contains dirPath then m.expandedDirs
            else dirPath :: m.expandedDirs,
          selectedLine := clampSel ((l : Nat) : Int)
            (newMaxLine (buildTreeWithMaps (cfgOf { m with expandedDirs := if m.expandedDirs.contains dirPath then m.expandedDirs else dirPath :: m.expandedDirs } ign) fs)),
          maxLine := newMaxLine (buildTreeWithMaps (cfgOf { m with expandedDirs := if m.expandedDirs.contains dirPath then m.expandedDirs else dirPath :: m.expandedDirs } ign) fs),
          fileMap := (buildTreeWithMaps (cfgOf { m with expandedDirs := if m.expandedDirs.contains dirPath then m.expandedDirs else dirPath :: m.expandedDirs } ign) fs).fileMap,
          dirMap := (buildTreeWithMaps (cfgOf { m with expandedDirs := if m.expandedDirs.contains dirPath then m.expandedDirs else dirPath :: m.expandedDirs } ign) fs).dirMap } := by
        simp only [keyL]
        rw [if_neg (by simp [hn])]
        rw [hldir]
        simp at hrec hfind hdnone
        simp [hrec, hfind, hdnone]
      rw [hL]
      show lookupAt (buildTreeWithMaps (cfgOf { m with expandedDirs := if m.expandedDirs.contains dirPath then m.expandedDirs else dirPath :: m.expandedDirs } ign) fs).fileMap
        (clampSel ((l : Nat) : Int)
          (newMaxLine (buildTreeWithMaps (cfgOf { m with expandedDirs := if m.expandedDirs.contains dirPath then m.expandedDirs else dirPath :: m.expandedDirs } ign) fs))) = some p
      rw [clampSel_id _ _ (Int.natCast_nonneg l) hub]
      exact hlook
    · intro hnotf hpres
      have hfnone := findLineOf_not_mem
        (buildTreeWithMaps (cfgOf { m with expandedDirs := if m.expandedDirs.contains dirPath then m.expandedDirs else dirPath :: m.expandedDirs } ign) fs).fileMap p hnotf
      obtain ⟨l, hfind, hlmem⟩ := findLineOf_mem
        (buildTreeWithMaps (cfgOf { m with expandedDirs := if m.expandedDirs.contains dirPath then m.expandedDirs else dirPath :: m.expandedDirs } ign) fs).dirMap p hpres
      obtain ⟨hlook, hlb, hub⟩ := dirMap_entry_resolves
        (cfgOf { m with expandedDirs := if m.expandedDirs.contains dirPath then m.expandedDirs else dirPath :: m.expandedDirs } ign) fs l p hlmem
      have hL : keyL m ign fs = { m with
          expandedDirs := if m.expandedDirs.contains dirPath then m.expandedDirs
            else dirPath :: m.expandedDirs,
          selectedLine := clampSel ((l : Nat) : Int)
            (newMaxLine (buildTreeWithMaps (cfgOf { m with expandedDirs := if m.expandedDirs.contains dirPath then m.expandedDirs else dirPath :: m.expandedDirs } ign) fs)),
          maxLine := newMaxLine (buildTreeWithMaps (cfgOf { m with expandedDirs := if m.expandedDirs.contains dirPath then m.expandedDirs else dirPath :: m.expandedDirs } ign) fs),
          fileMap := (buildTreeWithMaps (cfgOf { m with expandedDirs := if m.expandedDirs.contains dirPath then m.expandedDirs else dirPath :: m.expandedDirs } ign) fs).fileMap,
          dirMap := (buildTreeWithMaps (cfgOf { m with expandedDirs := if m.expandedDirs.contains dirPath then m.expandedDirs else dirPath :: m.expandedDirs } ign) fs).dirMap } := by
        simp only [keyL]
        rw [if_neg (by simp [hn])]
        rw [hldir]
        simp at hrec hfnone hfind
        simp [hrec, hfnone, hfind]
      rw [hL]
      show lookupAt (buildTreeWithMaps (cfgOf { m with expandedDirs := if m.expandedDirs.contains dirPath then m.expandedDirs else dirPath :: m.expandedDirs } ign) fs).dirMap
        (clampSel ((l : Nat) : Int)
          (newMaxLine (buildTreeWithMaps (cfgOf { m with expandedDirs := if m.expandedDirs.contains dirPath then m.expandedDirs else dirPath :: m.expandedDirs } ign) fs))) = some p
      rw [clampSel_id _ _ (Int.natCast_nonneg l) hub]
      exact hlook

/-- Witness for the amended C1: a full refresh with the directory sub selected
(old line 2) relocates the cursor to sub's new line, resolved through the
directory index; and a nesting on-to-off toggle with the file a selected
relocates the cursor to a line resolving to a through the file index. -/
theorem selection_relocation_amended_witness :
    (lookupAt (keyR ⟨2, 2, [(1, ["a"])], [(2, ["sub"])], true, false, false, []⟩
        (fun _ => false)
        [FSEntry.file "a", FSEntry.file "b", FSEntry.dir "sub" true []]).dirMap
      ((keyR ⟨2, 2, [(1, ["a"])], [(2, ["sub"])], true, false, false, []⟩
        (fun _ => false)
        [FSEntry.file "a", FSEntry.file "b", FSEntry.dir "sub" true []]).selectedLine)
      = some ["sub"])
  ∧ (lookupAt (keyN ⟨1, 2, [(1, ["a"])], [], true, false, true, []⟩
        (fun _ => false)
        [FSEntry.file "a", FSEntry.dir "sub" true [FSEntry.file "d"]]).fileMap
      ((keyN ⟨1, 2, [(1, ["a"])], [], true, false, true, []⟩
        (fun _ => false)
        [FSEntry.file "a", FSEntry.dir "sub" true [FSEntry.file "d"]]).selectedLine)
      = some ["a"]) := by
  constructor
  · have h := ((selection_relocation_amended
        ⟨2, 2, [(1, ["a"])], [(2, ["sub"])], true, false, false, []⟩
        (fun _ => false) [FSEntry.file "a", FSEntry.file "b", FSEntry.dir "sub" true []]
        ["sub"] ⟨by decide, by simp [wfAux]⟩).1 (by decide)).2
    apply h
    · simp [buildTreeWithMaps, buildList, skipEntry, goHasPre, shouldExpand, cfgOf]
    · simp [buildTreeWithMaps, buildList, skipEntry, goHasPre, shouldExpand, cfgOf]
  · have h := (selection_relocation_amended
        ⟨1, 2, [(1, ["a"])], [], true, false, true, []⟩
        (fun _ => false) [FSEntry.file "a", FSEntry.dir "sub" true [FSEntry.file "d"]]
        ["a"] ⟨by decide, by simp [wfAux]⟩).2.2.2.2.2.1 rfl (by decide)
    apply h
    simp [buildTreeWithMaps, buildList, skipEntry, goHasPre, shouldExpand, cfgOf]

end Vinw
